import Mathlib

/-!
Verification of the phone_data lookup engine (binary database of Chinese
phone-number prefixes) against its natural-language specification.

The Rust sources are shallowly embedded as follows.

* Byte buffers (the records blob, input strings) are `List Nat`, each element
  a byte value.  Rust `&str` inputs are byte lists; where a property needs
  the Rust guarantee that a `&str` is valid UTF-8 we add `validUtf8` as an
  explicit hypothesis.
* Machine integers are `Int`/`Nat` with explicit two-complement wrapping
  (`% 2 ^ 32`, `% 2 ^ 64`) where the Rust code casts or can wrap.
* Fallible Rust functions returning `Result` become `Except`; Rust code that
  can panic (slice indexing out of bounds, `usize` underflow, byte slicing of
  a `&str` off a character boundary) is wrapped in `Option`, with `none`
  modelling the panic.
* The `anyhow::Result` errors of the strategy modules (`binary_search.rs`,
  `phone_hash.rs`, `phone_bloom.rs`, `phone_simd.rs`) are modelled by
  `RError`: either a shared `ErrorKind` or a propagated `ParseIntError`
  (from `str::parse::<i32>`).
* `std::collections::HashMap` is modelled as an association list with
  replace-on-insert semantics; `DefaultHasher`-based bloom hashing is
  modelled by an arbitrary function parameter `h : Int → Nat → Nat`
  (the Rust hash is a pure function of the item and the seed).
-/

set_option maxHeartbeats 1000000

deriving instance DecidableEq for Except

namespace PhoneData

/-- Error kinds shared by `lib.rs` and `common.rs`.  (`lib.rs` additionally
has an `Io` variant wrapping `std::io::Error`; it is produced only while
opening the database file, never by the lookup paths modelled here, so it is
omitted.) -/
inductive ErrorKind where
  | InvalidPhoneDatabase
  | InvalidLength
  | NotFound
  | InvalidOpNo
deriving DecidableEq

/-- Errors of the `anyhow`-based strategy lookups: either one of the shared
`ErrorKind` values, or a `std::num::ParseIntError` propagated by the `?`
conversion applied to `no.parse::<i32>()` in `find`. -/
inductive RError where
  | kind (k : ErrorKind)
  | parseInt
deriving DecidableEq

/-- One 9-byte index entry (`common.rs` `Index`, identical private copies in
`lib.rs`, `phone_bloom.rs`, `phone_simd.rs`): the i32 prefix key, the i32
absolute record offset, and the u8 carrier code. -/
structure Index where
  phoneNoPrefix : Int
  recordsOffset : Int
  cardType : Nat
deriving DecidableEq

/-- The carrier enumeration (`common.rs` `CardType`; `lib.rs` has an
identical private copy). -/
inductive CardType where
  | Cmcc
  | Cucc
  | Ctcc
  | CtccV
  | CuccV
  | CmccV
  | Cbcc
  | CbccV
deriving DecidableEq

/-- `CardType::from_u8`: codes 1..=8 map to carriers, everything else is
`InvalidOpNo`. -/
def CardType.fromU8 (i : Nat) : Except ErrorKind CardType :=
  match i with
  | 1 => .ok .Cmcc
  | 2 => .ok .Cucc
  | 3 => .ok .Ctcc
  | 4 => .ok .CtccV
  | 5 => .ok .CuccV
  | 6 => .ok .CmccV
  | 7 => .ok .Cbcc
  | 8 => .ok .CbccV
  | _ => .error .InvalidOpNo

/-- `CardType::get_description`. -/
def CardType.getDescription : CardType → String
  | .Cmcc => "中国移动"
  | .Cucc => "中国联通"
  | .Ctcc => "中国电信"
  | .CtccV => "中国电信虚拟运营商"
  | .CuccV => "中国联通虚拟运营商"
  | .CmccV => "中国移动虚拟运营商"
  | .Cbcc => "中国广电"
  | .CbccV => "中国广电虚拟运营商"

/-- A decoded record (`common.rs` `ParsedRecord`, `lib.rs` `Records`): the
four pipe-separated fields, kept as their UTF-8 byte slices. -/
structure ParsedRecord where
  province : List Nat
  city : List Nat
  zipCode : List Nat
  areaCode : List Nat
deriving DecidableEq

/-- The lookup result (`common.rs` / `lib.rs` `PhoneNoInfo`): the four region
fields as UTF-8 byte slices plus the carrier description string. -/
structure PhoneNoInfo where
  province : List Nat
  city : List Nat
  zipCode : List Nat
  areaCode : List Nat
  cardType : String
deriving DecidableEq

/-- ASCII decimal digit test on a byte. -/
def isDigitByte (b : Nat) : Bool := 48 ≤ b && b ≤ 57

/-- UTF-8 continuation byte test (`0x80..=0xBF`).  A position inside a
`&str` is a character boundary exactly when the byte there is not a
continuation byte. -/
def isContinuationByte (b : Nat) : Bool := 128 ≤ b && b ≤ 191

/-- Byte-at-a-time UTF-8 scanner.  The second argument is the list of
(lower, upper) bounds the next bytes must satisfy to finish the current
multi-byte character; it is empty at a character boundary.  A leading byte
pushes the bounds of its continuation bytes exactly as the `std` UTF-8
validator requires them (E0/ED/F0/F4 have restricted second bytes, ruling
out surrogates and over-long/out-of-range encodings). -/
def utf8Scan : List Nat → List (Nat × Nat) → Bool
  | [], pending => pending.isEmpty
  | b :: rest, [] =>
    if b < 128 then utf8Scan rest []
    else if 194 ≤ b ∧ b ≤ 223 then utf8Scan rest [(128, 191)]
    else if b = 224 then utf8Scan rest [(160, 191), (128, 191)]
    else if (225 ≤ b ∧ b ≤ 236) ∨ b = 238 ∨ b = 239 then
      utf8Scan rest [(128, 191), (128, 191)]
    else if b = 237 then utf8Scan rest [(128, 159), (128, 191)]
    else if b = 240 then utf8Scan rest [(144, 191), (128, 191), (128, 191)]
    else if 241 ≤ b ∧ b ≤ 243 then
      utf8Scan rest [(128, 191), (128, 191), (128, 191)]
    else if b = 244 then utf8Scan rest [(128, 143), (128, 191), (128, 191)]
    else false
  | b :: rest, p :: ps =>
    if p.1 ≤ b ∧ b ≤ p.2 then utf8Scan rest ps else false

/-- Validity of a byte sequence as UTF-8, mirroring what
`std::str::from_utf8` accepts (well-formed sequences only, surrogates and
over-long encodings rejected). -/
def validUtf8 (l : List Nat) : Bool := utf8Scan l []

/-- Splitting a byte list at a separator byte, with the semantics of Rust
`str::split` on a one-byte pattern (splitting the UTF-8 bytes of a string at
an ASCII separator coincides with splitting its characters there, because a
continuation byte is never below 128). -/
def splitOnByte (sep : Nat) : List Nat → List (List Nat)
  | [] => [[]]
  | b :: rest =>
    if b = sep then [] :: splitOnByte sep rest
    else
      match splitOnByte sep rest with
      | [] => [[b]]
      | h :: t => (b :: h) :: t

/-- Decimal value of a digit byte list (accumulator form used by both Rust
parsers). -/
def digitsVal (l : List Nat) : Nat := l.foldl (fun a d => a * 10 + (d - 48)) 0

/-- Helper for `parseI32`: parse a digit sequence (after the optional sign
was consumed).  Rust `from_str_radix` uses checked accumulation; for base 10
that fails exactly when the final value falls outside the i32 range, which is
the bound check used here. -/
def parseDigitsI32 (digits : List Nat) (neg : Bool) : Except Unit Int :=
  if digits.isEmpty then .error ()
  else if digits.all (fun d => isDigitByte d) then
    let v := digitsVal digits
    if neg then
      if v ≤ 2 ^ 31 then .ok (-(v : Int)) else .error ()
    else
      if v < 2 ^ 31 then .ok (v : Int) else .error ()
  else .error ()

/-- `str::parse::<i32>` on the UTF-8 bytes of the string: optional leading
sign (`+`, byte 43, or `-`, byte 45), then at least one decimal digit, with
an i32 range check.  Any non-digit byte (including the leading byte of a
multi-byte character, which is ≥ 194) is rejected. -/
def parseI32 (s : List Nat) : Except Unit Int :=
  match s with
  | [] => .error ()
  | c :: rest =>
    if c = 43 then parseDigitsI32 rest false
    else if c = 45 then parseDigitsI32 rest true
    else parseDigitsI32 s false

/-- `records_offset as usize` on a 64-bit target: an i32 is sign-extended,
i.e. reduced modulo `2 ^ 64`. -/
def i32AsUsize (i : Int) : Nat := (i % (2 ^ 64 : Int)).toNat

/-- `common.rs` `utils::parse_record_data` (byte-identical private copies
live in `phone_hash.rs` and `phone_simd.rs`): slice the records blob from
`offset - 8`, scan for the first NUL, check UTF-8, split at `|` and require
exactly four fields.  `none` models the Rust panic of `records[offset - 8..]`
when `offset < 8` (usize subtraction underflow) or when `offset - 8` exceeds
the blob length (slice index out of bounds). -/
def parseRecordData (records : List Nat) (offset : Nat) :
    Option (Except ErrorKind ParsedRecord) :=
  if offset < 8 then none
  else if records.length < offset - 8 then none
  else
    let tail := records.drop (offset - 8)
    match tail.findIdx? (fun b => b = 0) with
    | none => some (.error .InvalidPhoneDatabase)
    | some pos =>
      let recordSlice := tail.take pos
      if validUtf8 recordSlice then
        let parts := splitOnByte 124 recordSlice
        if parts.length = 4 then
          some (.ok ⟨parts.getD 0 [], parts.getD 1 [], parts.getD 2 [], parts.getD 3 []⟩)
        else some (.error .InvalidPhoneDatabase)
      else some (.error .InvalidPhoneDatabase)

/-- `lib.rs` `PhoneData::parse_to_record`.  It differs from
`utils::parse_record_data` in its terminator handling:
`splitn(2, |i| *i == 0u8).nth(0)` yields the bytes before the first NUL, or
the whole remaining blob when no NUL occurs (no error in that case).  The
same out-of-range offsets panic (`none`). -/
def libParseToRecord (records : List Nat) (offset : Nat) :
    Option (Except ErrorKind ParsedRecord) :=
  if offset < 8 then none
  else if records.length < offset - 8 then none
  else
    let recordSlice := (records.drop (offset - 8)).takeWhile (fun b => ¬ b = 0)
    if validUtf8 recordSlice then
      let parts := splitOnByte 124 recordSlice
      if parts.length = 4 then
        some (.ok ⟨parts.getD 0 [], parts.getD 1 [], parts.getD 2 [], parts.getD 3 []⟩)
      else some (.error .InvalidPhoneDatabase)
    else some (.error .InvalidPhoneDatabase)

/-- `common.rs` `utils::build_phone_info`: resolve the carrier code and
assemble the `PhoneNoInfo` from an already parsed record. -/
def buildPhoneInfo (r : ParsedRecord) (cardType : Nat) : Except RError PhoneNoInfo :=
  match CardType.fromU8 cardType with
  | .error k => .error (.kind k)
  | .ok ct => .ok ⟨r.province, r.city, r.zipCode, r.areaCode, ct.getDescription⟩

/-- The bisection loop shared verbatim by `binary_search.rs::find`,
`phone_bloom.rs::binary_search` and `phone_simd.rs::simd_binary_search`
(`while left < right { mid = left + ((right - left) >> 1); ... }`), made
structurally recursive on a fuel argument (the interval shrinks at every
step, so any fuel larger than the initial interval length is enough; the
`unsafe get_unchecked` is modelled by `List.get?`, which is always in range
while `right ≤ idx.length`). -/
def binSearchGo (idx : List Index) (target : Int) :
    Nat → Nat → Nat → Option Index
  | 0, _, _ => none
  | fuel + 1, left, right =>
    if left < right then
      let mid := left + (right - left) / 2
      match idx.get? mid with
      | none => none
      | some e =>
        if e.phoneNoPrefix = target then some e
        else if target < e.phoneNoPrefix then binSearchGo idx target fuel left mid
        else binSearchGo idx target fuel (mid + 1) right
    else none

/-- The bisection loop run over the whole index.  This also models
`lib.rs`'s use of `slice::binary_search_by_key`: the standard library search
is the same left/right bisection and, on a slice sorted by key, returns the
position of a matching element exactly when one exists, which is the only
behaviour the theorems below rely on. -/
def binSearch (idx : List Index) (target : Int) : Option Index :=
  binSearchGo idx target (idx.length + 1) 0 idx.length

/-- The in-memory state shared by `binary_search.rs::PhoneData` and
`phone_simd.rs::PhoneDataSimd` after loading: the records blob and the index
entries in file order. -/
structure BinDB where
  records : List Nat
  index : List Index
deriving DecidableEq

/-- `impl PhoneLookup for PhoneData` in `binary_search.rs`: length gate,
prefix parse (`no.parse` when the length is exactly 7, otherwise
`no[..7].parse`), bisection, then `parse_to_record` and carrier resolution.
`none` models the two panics: the byte slice `no[..7]` applied off a
character boundary (byte 7 a continuation byte), and an out-of-range record
offset inside `utils::parse_record_data`. -/
def findBinary (db : BinDB) (no : List Nat) : Option (Except RError PhoneNoInfo) :=
  let len := no.length
  if len < 7 ∨ 11 < len then some (.error (.kind .InvalidLength))
  else if len ≠ 7 ∧ isContinuationByte (no.getD 7 0) then none
  else
    match (if len = 7 then parseI32 no else parseI32 (no.take 7)) with
    | .error _ => some (.error .parseInt)
    | .ok p =>
      match binSearch db.index p with
      | some e =>
        match parseRecordData db.records (i32AsUsize e.recordsOffset) with
        | none => none
        | some (.error k) => some (.error (.kind k))
        | some (.ok r) => some (buildPhoneInfo r e.cardType)
      | none => some (.error (.kind .NotFound))

/-- `impl PhoneLookup for PhoneDataSimd` in `phone_simd.rs`: identical
behaviour to the sorted-index strategy (its `simd_binary_search` is the same
loop and its private `parse_to_record` is byte-identical to
`utils::parse_record_data`; the prefetch hints have no observable effect). -/
def findSimd (db : BinDB) (no : List Nat) : Option (Except RError PhoneNoInfo) :=
  let len := no.length
  if len < 7 ∨ 11 < len then some (.error (.kind .InvalidLength))
  else if len ≠ 7 ∧ isContinuationByte (no.getD 7 0) then none
  else
    match (if len = 7 then parseI32 no else parseI32 (no.take 7)) with
    | .error _ => some (.error .parseInt)
    | .ok p =>
      match binSearch db.index p with
      | some e =>
        match parseRecordData db.records (i32AsUsize e.recordsOffset) with
        | none => none
        | some (.error k) => some (.error (.kind k))
        | some (.ok r) => some (buildPhoneInfo r e.cardType)
      | none => some (.error (.kind .NotFound))

/-- One entry of `phone_hash.rs`'s `phone_map`: the eagerly decoded record
fields plus the raw carrier byte (`PhoneRecord`). -/
structure HashRecord where
  province : List Nat
  city : List Nat
  zipCode : List Nat
  areaCode : List Nat
  cardType : Nat
deriving DecidableEq

/-- Lookup in the association-list model of `HashMap<i32, PhoneRecord>`. -/
def lookupAssoc (m : List (Int × HashRecord)) (k : Int) : Option HashRecord :=
  (m.find? (fun kv => kv.1 = k)).map (fun kv => kv.2)

/-- Insert in the association-list model of the hash map: replaces the value
of an existing key, otherwise appends (matching `HashMap::insert`, whose
last write for a key wins). -/
def insertAssoc (m : List (Int × HashRecord)) (k : Int) (v : HashRecord) :
    List (Int × HashRecord) :=
  if (m.find? (fun kv => kv.1 = k)).isSome then
    m.map (fun kv => if kv.1 = k then (k, v) else kv)
  else m ++ [(k, v)]

/-- The index-scanning loop of `PhoneDataHash::new`: every entry's record is
decoded eagerly (`Self::parse_to_record(&records, records_offset)?`, a
byte-identical copy of `utils::parse_record_data`) and inserted into the
map; the first decode failure aborts construction, an out-of-range offset
panics (`none`). -/
def buildPhoneMapGo (records : List Nat) (m : List (Int × HashRecord)) :
    List Index → Option (Except ErrorKind (List (Int × HashRecord)))
  | [] => some (.ok m)
  | e :: rest =>
    match parseRecordData records (i32AsUsize e.recordsOffset) with
    | none => none
    | some (.error k) => some (.error k)
    | some (.ok r) =>
      buildPhoneMapGo records
        (insertAssoc m e.phoneNoPrefix ⟨r.province, r.city, r.zipCode, r.areaCode, e.cardType⟩)
        rest

/-- The hash table built by `PhoneDataHash::new` from the records blob and
the index entries in file order, starting from an empty map. -/
def buildPhoneMap (records : List Nat) (idx : List Index) :
    Option (Except ErrorKind (List (Int × HashRecord))) :=
  buildPhoneMapGo records [] idx

/-- `impl PhoneLookup for PhoneDataHash` in `phone_hash.rs`: length gate,
prefix parse, hash-map lookup, carrier resolution.  The map argument is the
`phone_map` built at construction. -/
def findHash (m : List (Int × HashRecord)) (no : List Nat) :
    Option (Except RError PhoneNoInfo) :=
  let len := no.length
  if len < 7 ∨ 11 < len then some (.error (.kind .InvalidLength))
  else if len ≠ 7 ∧ isContinuationByte (no.getD 7 0) then none
  else
    match (if len = 7 then parseI32 no else parseI32 (no.take 7)) with
    | .error _ => some (.error .parseInt)
    | .ok p =>
      match lookupAssoc m p with
      | some rec =>
        match CardType.fromU8 rec.cardType with
        | .error k => some (.error (.kind k))
        | .ok ct =>
          some (.ok ⟨rec.province, rec.city, rec.zipCode, rec.areaCode, ct.getDescription⟩)
      | none => some (.error (.kind .NotFound))

/-- `phone_bloom.rs::BloomFilter`: a list of u64 words, the number of hash
seeds, and the insertion counter.  (`BloomFilter::new` derives the sizes
from the expected item count and the target false-positive rate with f64
arithmetic; the claims below only need the resulting structure, so the
filter is taken as a value with a non-empty bit array — the configured
parameters yield roughly 2.4 million bits.) -/
structure BloomFilter where
  bits : List Nat
  hashCount : Nat
  itemCount : Nat
deriving DecidableEq

/-- The body of the seed loop of `BloomFilter::insert`: set bit
`h item i % (bits.len() * 64)`.  The word read `self.bits[array_index]` is
modelled with `getD`; it is in range whenever `bits` is non-empty, which all
theorems assume (with an empty bit array the Rust code panics on `% 0`). -/
def bloomStep (h : Int → Nat → Nat) (item : Int) (bits : List Nat) (i : Nat) :
    List Nat :=
  let bitIndex := h item i % (bits.length * 64)
  let arrayIndex := bitIndex / 64
  let bitOffset := bitIndex % 64
  bits.set arrayIndex (bits.getD arrayIndex 0 ||| (1 <<< bitOffset))

/-- `BloomFilter::insert`: set one bit per hash seed, then bump the item
counter.  `h` is the pure function computed by the fresh `DefaultHasher` per
call (a function of the item and the seed only). -/
def bloomInsert (h : Int → Nat → Nat) (bf : BloomFilter) (item : Int) : BloomFilter :=
  ⟨(List.range bf.hashCount).foldl (bloomStep h item) bf.bits, bf.hashCount, bf.itemCount + 1⟩

/-- The body of the seed loop of `BloomFilter::contains`: is the bit
`h item i % (bits.len() * 64)` set? -/
def seedBitSet (h : Int → Nat → Nat) (item : Int) (bits : List Nat) (i : Nat) : Bool :=
  let bitIndex := h item i % (bits.length * 64)
  !((bits.getD (bitIndex / 64) 0 &&& (1 <<< (bitIndex % 64))) == 0)

/-- `BloomFilter::contains`: every seed's bit must be set. -/
def bloomContains (h : Int → Nat → Nat) (bf : BloomFilter) (item : Int) : Bool :=
  (List.range bf.hashCount).all (fun i => seedBitSet h item bf.bits i)

/-- The filter population performed by the index-scanning loop of
`PhoneDataBloom::new`: every entry's prefix is inserted, in file order. -/
def bloomBuild (h : Int → Nat → Nat) (bf0 : BloomFilter) (prefixes : List Int) :
    BloomFilter :=
  prefixes.foldl (bloomInsert h) bf0

/-- The in-memory state of `phone_bloom.rs::PhoneDataBloom`. -/
structure BloomDB where
  records : List Nat
  index : List Index
  filter : BloomFilter
deriving DecidableEq

/-- `impl PhoneLookup for PhoneDataBloom`: length gate, prefix parse, bloom
membership test short-circuiting to `NotFound`, then the same bisection and
record decoding as the sorted-index strategy. -/
def findBloom (h : Int → Nat → Nat) (db : BloomDB) (no : List Nat) :
    Option (Except RError PhoneNoInfo) :=
  let len := no.length
  if len < 7 ∨ 11 < len then some (.error (.kind .InvalidLength))
  else if len ≠ 7 ∧ isContinuationByte (no.getD 7 0) then none
  else
    match (if len = 7 then parseI32 no else parseI32 (no.take 7)) with
    | .error _ => some (.error .parseInt)
    | .ok p =>
      if !(bloomContains h db.filter p) then some (.error (.kind .NotFound))
      else
        match binSearch db.index p with
        | some e =>
          match parseRecordData db.records (i32AsUsize e.recordsOffset) with
          | none => none
          | some (.error k) => some (.error (.kind k))
          | some (.ok r) => some (buildPhoneInfo r e.cardType)
        | none => some (.error (.kind .NotFound))

/-- The bloom strategy with the filter test removed (the code path a
positive membership answer falls through to).  Used to state that the filter
never short-circuits a present prefix. -/
def findBloomSlow (db : BloomDB) (no : List Nat) :
    Option (Except RError PhoneNoInfo) :=
  let len := no.length
  if len < 7 ∨ 11 < len then some (.error (.kind .InvalidLength))
  else if len ≠ 7 ∧ isContinuationByte (no.getD 7 0) then none
  else
    match (if len = 7 then parseI32 no else parseI32 (no.take 7)) with
    | .error _ => some (.error .parseInt)
    | .ok p =>
      match binSearch db.index p with
      | some e =>
        match parseRecordData db.records (i32AsUsize e.recordsOffset) with
        | none => none
        | some (.error k) => some (.error (.kind k))
        | some (.ok r) => some (buildPhoneInfo r e.cardType)
      | none => some (.error (.kind .NotFound))

/-- The state of `lib.rs::PhoneData` relevant to `find`: the loaded data
plus the cache configuration (`cache_enabled`, `cache_max_size`). -/
structure LibDB where
  records : List Nat
  index : List Index
  cacheEnabled : Bool
  cacheMaxSize : Nat

/-- The mutex-guarded `HashMap<String, PhoneNoInfo>` cache, modelled as an
association list keyed by the exact input byte string. -/
abbrev Cache := List (List Nat × PhoneNoInfo)

/-- `HashMap::get` on the cache. -/
def cacheLookup (c : Cache) (k : List Nat) : Option PhoneNoInfo :=
  (c.find? (fun kv => kv.1 = k)).map (fun kv => kv.2)

/-- `HashMap::insert` on the cache (replace an existing key, otherwise
add). -/
def cacheInsert (c : Cache) (k : List Nat) (v : PhoneNoInfo) : Cache :=
  if (c.find? (fun kv => kv.1 = k)).isSome then
    c.map (fun kv => if kv.1 = k then (k, v) else kv)
  else c ++ [(k, v)]

/-- `lib.rs` `PhoneData::parse_phone_prefix`: fewer than 7 bytes is
`InvalidLength`; a non-digit among the first 7 bytes is
`InvalidPhoneDatabase`; otherwise the decimal value of the first 7 digit
bytes (pure byte indexing — this function never slices the string, so it
cannot panic). -/
def parsePhonePrefix (no : List Nat) : Except ErrorKind Int :=
  if no.length < 7 then .error .InvalidLength
  else
    (no.take 7).foldl
      (fun acc d => acc.bind (fun r =>
        if 48 ≤ d ∧ d ≤ 57 then .ok (r * 10 + ((d - 48 : Nat) : Int))
        else .error .InvalidPhoneDatabase))
      (.ok 0)

/-- The cache-independent part of `lib.rs` `PhoneData::find` (everything the
source does after the cache probe misses: prefix parse, bisection,
`parse_to_record`, carrier resolution).  `none` models the panic of
`parse_to_record` on an out-of-range offset. -/
def libFindCore (db : LibDB) (no : List Nat) : Option (Except ErrorKind PhoneNoInfo) :=
  match parsePhonePrefix no with
  | .error k => some (.error k)
  | .ok p =>
    match binSearch db.index p with
    | some e =>
      match libParseToRecord db.records (i32AsUsize e.recordsOffset) with
      | none => none
      | some (.error k) => some (.error k)
      | some (.ok r) =>
        match CardType.fromU8 e.cardType with
        | .error k => some (.error k)
        | .ok ct => some (.ok ⟨r.province, r.city, r.zipCode, r.areaCode, ct.getDescription⟩)
    | none => some (.error .NotFound)

/-- `lib.rs` `PhoneData::find`: length gate, cache probe (when enabled),
then the core lookup; a successful result is inserted into the cache when
the cache is enabled and strictly below `cache_max_size` entries.  Returns
the result together with the new cache state (the mutex cannot fail in this
single-threaded model). -/
def libFind (db : LibDB) (cache : Cache) (no : List Nat) :
    Option ((Except ErrorKind PhoneNoInfo) × Cache) :=
  if no.length < 7 ∨ 11 < no.length then some (.error .InvalidLength, cache)
  else
    match (if db.cacheEnabled then cacheLookup cache no else none) with
    | some v => some (.ok v, cache)
    | none =>
      match libFindCore db no with
      | none => none
      | some (.error k) => some (.error k, cache)
      | some (.ok info) =>
        some (.ok info,
          if db.cacheEnabled ∧ cache.length < db.cacheMaxSize then cacheInsert cache no info
          else cache)

/-- A sequence of `find` calls against one `lib.rs` database instance,
threading the cache (a panicking call is skipped: the cache is unchanged by
it). -/
def runFinds (db : LibDB) : List (List Nat) → Cache → Cache
  | [], c => c
  | no :: rest, c =>
    match libFind db c no with
    | some p => runFinds db rest p.2
    | none => runFinds db rest c

/-- The cache-free specification of `lib.rs` `find`: length gate plus the
core lookup.  The cache-transparency theorems show `find` computes this
regardless of the cache configuration, whenever the cache is coherent. -/
def libFindSpec (db : LibDB) (no : List Nat) : Option (Except ErrorKind PhoneNoInfo) :=
  if no.length < 7 ∨ 11 < no.length then some (.error .InvalidLength)
  else libFindCore db no

/-- The unsigned little-endian 32-bit value of (the first four bytes of) a
byte list — the reading the spec ascribes to the header field. -/
def u32LE (s : List Nat) : Nat :=
  s.getD 0 0 + 256 * s.getD 1 0 + 65536 * s.getD 2 0 + 16777216 * s.getD 3 0

/-- `lib.rs` `PhoneData::four_u8_to_i32`: `i32::from_le_bytes` on the first
four bytes (a shorter slice is zero-padded), i.e. the *signed* two's
complement value. -/
def fourU8ToI32 (s : List Nat) : Int :=
  if u32LE s < 2 ^ 31 then (u32LE s : Int) else (u32LE s : Int) - 2 ^ 32

/-- The records length computed by `PhoneData::from_file_with_config`:
`four_u8_to_i32(&header[4..]) as u64` (sign extension), then
`as usize - 8` (modelled with the release-mode wrapping subtraction; a debug
build panics instead when the extended value is below 8 — either way the
byte count is not `v - 8` in the cases the corrected claim C9 excludes). -/
def computedRecordsLen (s : List Nat) : Nat :=
  (((fourU8ToI32 s) % (2 ^ 64 : Int)).toNat + 2 ^ 64 - 8) % 2 ^ 64

/-- A small concrete database used by the witnesses: one record
`"AB|CD|EF|GH"` NUL-terminated at file offset 8, one index entry mapping
prefix 1808683 to it with carrier code 1. -/
def cRecords : List Nat := [65, 66, 124, 67, 68, 124, 69, 70, 124, 71, 72, 0]

/-- The single index entry of the concrete database. -/
def cIndex : List Index := [⟨1808683, 8, 1⟩]

/-- The lookup result of the concrete database for prefix 1808683. -/
def cInfo : PhoneNoInfo :=
  ⟨[65, 66], [67, 68], [69, 70], [71, 72], CardType.Cmcc.getDescription⟩

/-- A one-entry index keyed by prefix 123456 (reachable by parsing the
signed string `"+123456"`), used by the claim C6 counterexample. -/
def cIndexPlus : List Index := [⟨123456, 8, 1⟩]

/-- An 8-byte input whose 8th byte is not a character boundary: the ASCII
digits `123456` followed by the two-byte character `é` (`0xC3 0xA9`).  A
valid UTF-8 string, 8 bytes long, whose byte 7 is a continuation byte. -/
def cPanicInput : List Nat := [49, 50, 51, 52, 53, 54, 195, 169]

/-- A concrete stand-in for the `DefaultHasher`-based bloom hash used by the
witnesses (the theorems hold for every hash function). -/
def cHash : Int → Nat → Nat := fun item seed => item.natAbs + seed

/-- A valid number string in the sense of the spec: 7 to 11 characters, all
ASCII decimal digits. -/
def ValidNumber (no : List Nat) : Prop :=
  7 ≤ no.length ∧ no.length ≤ 11 ∧ no.all (fun b => isDigitByte b) = true

/-- The spec's data-model invariant on the index: entries strictly
ascending by prefix (which also makes prefixes unique). -/
def IndexSorted (idx : List Index) : Prop :=
  List.Pairwise (fun a b => a.phoneNoPrefix < b.phoneNoPrefix) idx

/-- Well-formedness of a loaded database: every index entry points at a
record that decodes successfully (under both decoders) and carries a known
carrier code. -/
def WFDB (records : List Nat) (idx : List Index) : Prop :=
  ∀ e ∈ idx,
    (∃ r, parseRecordData records (i32AsUsize e.recordsOffset) = some (.ok r)) ∧
    (∃ r, libParseToRecord records (i32AsUsize e.recordsOffset) = some (.ok r)) ∧
    (∃ ct, CardType.fromU8 e.cardType = .ok ct)

/-- Cache coherence: every cached value is the value the cache-independent
lookup would produce for its key.  This holds for the empty cache a fresh
database starts with, and claim C4 shows `find` preserves it. -/
def Coherent (db : LibDB) (cache : Cache) : Prop :=
  ∀ k v, cacheLookup cache k = some v → libFindCore db k = some (.ok v)

theorem isDigitByte_le {b : Nat} (h : isDigitByte b = true) : 48 ≤ b ∧ b ≤ 57 := by
  unfold isDigitByte at h
  simp only [Bool.and_eq_true, decide_eq_true_eq] at h
  exact h

theorem isContinuationByte_of_digit {b : Nat} (h : isDigitByte b = true) :
    isContinuationByte b = false := by
  have := isDigitByte_le h
  unfold isContinuationByte
  simp only [Bool.and_eq_false_iff, decide_eq_false_iff_not]
  omega

theorem digitsValGo_lt (l : List Nat) :
    ∀ a b : Nat, l.all (fun d => isDigitByte d) = true → a < b →
      l.foldl (fun x d => x * 10 + (d - 48)) a < b * 10 ^ l.length := by
  induction l with
  | nil =>
    intro a b _ hab
    simpa using hab
  | cons d t ih =>
    intro a b hall hab
    rw [List.all_cons, Bool.and_eq_true] at hall
    have hd := isDigitByte_le hall.1
    have hstep : a * 10 + (d - 48) < b * 10 := by omega
    have := ih (a * 10 + (d - 48)) (b * 10) hall.2 hstep
    rw [List.foldl_cons, List.length_cons, pow_succ]
    calc List.foldl (fun x d => x * 10 + (d - 48)) (a * 10 + (d - 48)) t
        < b * 10 * 10 ^ t.length := this
      _ = b * (10 ^ t.length * 10) := by ring

theorem digitsVal_lt (l : List Nat) (hall : l.all (fun d => isDigitByte d) = true) :
    digitsVal l < 10 ^ l.length := by
  have := digitsValGo_lt l 0 1 hall (by norm_num)
  simpa [digitsVal] using this

theorem parseI32_all_digits (l : List Nat) (hne : l ≠ [])
    (hall : l.all (fun d => isDigitByte d) = true) (hlt : digitsVal l < 2 ^ 31) :
    parseI32 l = .ok ((digitsVal l : Nat) : Int) := by
  cases l with
  | nil => exact absurd rfl hne
  | cons c rest =>
    rw [List.all_cons, Bool.and_eq_true] at hall
    have hc := isDigitByte_le hall.1
    unfold parseI32
    dsimp only
    rw [if_neg (by omega), if_neg (by omega)]
    unfold parseDigitsI32
    rw [if_neg (by simp), if_pos (by rw [List.all_cons, Bool.and_eq_true]; exact ⟨hall.1, hall.2⟩)]
    simp only [Bool.false_eq_true, if_false]
    rw [if_pos (by omega)]

theorem take7_all_digits {no : List Nat} (hall : no.all (fun b => isDigitByte b) = true) :
    (no.take 7).all (fun b => isDigitByte b) = true := by
  rw [List.all_eq_true] at hall ⊢
  intro x hx
  exact hall x (List.take_subset 7 no hx)

theorem take7_length {no : List Nat} (h7 : 7 ≤ no.length) : (no.take 7).length = 7 := by
  rw [List.length_take]
  omega

/-- For a valid number the strategy prefix parse (whole string at length 7,
first seven bytes otherwise) succeeds with the decimal value of the first
seven digits. -/
theorem strategyParse_valid {no : List Nat} (hno : ValidNumber no) :
    (if no.length = 7 then parseI32 no else parseI32 (no.take 7)) =
      .ok ((digitsVal (no.take 7) : Nat) : Int) := by
  obtain ⟨h7, _h11, hall⟩ := hno
  have hall7 := take7_all_digits hall
  have hlen7 := take7_length h7
  have hne : no.take 7 ≠ [] := by
    intro h
    rw [h] at hlen7
    simp at hlen7
  have hlt : digitsVal (no.take 7) < 2 ^ 31 := by
    have := digitsVal_lt (no.take 7) hall7
    rw [hlen7] at this
    omega
  by_cases h : no.length = 7
  · rw [if_pos h, show no.take 7 = no from List.take_of_length_le (by omega)]
    rw [show no.take 7 = no from List.take_of_length_le (by omega)] at hne hall7 hlt
    exact parseI32_all_digits _ hne hall7 hlt
  · rw [if_neg h]
    exact parseI32_all_digits _ hne hall7 hlt

/-- For a valid number the byte-7 continuation check of the strategy finds
never fires (byte 7, when it exists, is a digit). -/
theorem validNumber_no_panic {no : List Nat} (hno : ValidNumber no) :
    ¬ (no.length ≠ 7 ∧ isContinuationByte (no.getD 7 0) = true) := by
  obtain ⟨h7, _h11, hall⟩ := hno
  rintro ⟨hne7, hcont⟩
  have h7lt : 7 < no.length := by omega
  have hmem : no.getD 7 0 ∈ no := by
    rw [List.getD_eq_get?, List.get?_eq_get h7lt]
    simp only [Option.getD_some]
    exact List.get_mem no 7 h7lt
  rw [List.all_eq_true] at hall
  have := isContinuationByte_of_digit (hall _ hmem)
  rw [this] at hcont
  exact Bool.false_ne_true hcont

theorem bangAndShift_eq_testBit (w o : Nat) :
    (!((w &&& (1 <<< o)) == 0)) = w.testBit o := by
  rw [Nat.shiftLeft_eq, one_mul, Nat.and_two_pow]
  cases h : w.testBit o
  · simp
  · simp

theorem bloomStep_length (h : Int → Nat → Nat) (item : Int) (bits : List Nat) (i : Nat) :
    (bloomStep h item bits i).length = bits.length := by
  unfold bloomStep
  exact List.length_set bits _ _

theorem seedBitSet_bloomStep_mono (h : Int → Nat → Nat) (itemS itemT : Int)
    (bits : List Nat) (i j : Nat) (hset : seedBitSet h itemT bits j = true) :
    seedBitSet h itemT (bloomStep h itemS bits i) j = true := by
  unfold seedBitSet at hset ⊢
  unfold bloomStep
  dsimp only at hset ⊢
  rw [List.length_set]
  have haT : h itemT j % (bits.length * 64) / 64 < bits.length := by
    by_contra hge
    push_neg at hge
    rw [List.getD_eq_get?, List.get?_eq_none.mpr (by omega), Option.getD_none,
      Nat.zero_and] at hset
    simp at hset
  by_cases hab :
      h itemS i % (bits.length * 64) / 64 = h itemT j % (bits.length * 64) / 64
  · rw [hab, List.getD_eq_get?, List.get?_set_eq_of_lt _ haT, Option.getD_some,
      bangAndShift_eq_testBit, Nat.testBit_lor]
    rw [List.getD_eq_get?]
    rw [List.getD_eq_get?, bangAndShift_eq_testBit] at hset
    rw [hset, Bool.true_or]
  · rw [List.getD_eq_get?, List.get?_set_ne _ _ hab, ← List.getD_eq_get?]
    exact hset

theorem seedBitSet_bloomStep_self (h : Int → Nat → Nat) (item : Int)
    (bits : List Nat) (i : Nat) (hpos : 0 < bits.length) :
    seedBitSet h item (bloomStep h item bits i) i = true := by
  unfold seedBitSet bloomStep
  dsimp only
  rw [List.length_set]
  have hbi : h item i % (bits.length * 64) < bits.length * 64 :=
    Nat.mod_lt _ (Nat.mul_pos hpos (by norm_num))
  have ha : h item i % (bits.length * 64) / 64 < bits.length := by omega
  rw [List.getD_eq_get?, List.get?_set_eq_of_lt _ ha, Option.getD_some,
    bangAndShift_eq_testBit, Nat.testBit_lor]
  have : (1 <<< (h item i % (bits.length * 64) % 64)).testBit
      (h item i % (bits.length * 64) % 64) = true := by
    rw [Nat.shiftLeft_eq, one_mul]
    exact Nat.testBit_two_pow_self
  rw [this, Bool.or_true]

theorem seedBitSet_foldl_mono (h : Int → Nat → Nat) (itemS itemT : Int)
    (L : List Nat) :
    ∀ bits j, seedBitSet h itemT bits j = true →
      seedBitSet h itemT (L.foldl (bloomStep h itemS) bits) j = true := by
  induction L with
  | nil =>
    intro bits j hj
    simpa using hj
  | cons a t ih =>
    intro bits j hj
    rw [List.foldl_cons]
    exact ih _ _ (seedBitSet_bloomStep_mono h itemS itemT bits a j hj)

theorem foldl_bloomStep_length (h : Int → Nat → Nat) (item : Int) (L : List Nat) :
    ∀ bits : List Nat, (L.foldl (bloomStep h item) bits).length = bits.length := by
  induction L with
  | nil => intro bits; rfl
  | cons a t ih =>
    intro bits
    rw [List.foldl_cons, ih, bloomStep_length]

theorem foldl_bloomStep_sets (h : Int → Nat → Nat) (item : Int) (L : List Nat) :
    ∀ bits, 0 < bits.length → ∀ i ∈ L,
      seedBitSet h item (L.foldl (bloomStep h item) bits) i = true := by
  induction L with
  | nil => simp
  | cons a t ih =>
    intro bits hpos i hi
    rw [List.foldl_cons]
    rcases List.mem_cons.mp hi with rfl | hit
    · exact seedBitSet_foldl_mono h item item t (bloomStep h item bits i) i
        (seedBitSet_bloomStep_self h item bits i hpos)
    · exact ih (bloomStep h item bits a) (by rw [bloomStep_length]; exact hpos) i hit

theorem bloomContains_bloomInsert_self (h : Int → Nat → Nat) (bf : BloomFilter)
    (item : Int) (hpos : 0 < bf.bits.length) :
    bloomContains h (bloomInsert h bf item) item = true := by
  unfold bloomContains bloomInsert
  dsimp only
  rw [List.all_eq_true]
  intro i hi
  exact foldl_bloomStep_sets h item (List.range bf.hashCount) bf.bits hpos i hi

theorem bloomContains_bloomInsert_mono (h : Int → Nat → Nat) (bf : BloomFilter)
    (itemS itemT : Int) (hc : bloomContains h bf itemT = true) :
    bloomContains h (bloomInsert h bf itemS) itemT = true := by
  unfold bloomContains at hc ⊢
  unfold bloomInsert
  dsimp only at hc ⊢
  rw [List.all_eq_true] at hc ⊢
  intro i hi
  exact seedBitSet_foldl_mono h itemS itemT _ bf.bits i (hc i hi)

theorem bloomInsert_bits_length (h : Int → Nat → Nat) (bf : BloomFilter) (item : Int) :
    (bloomInsert h bf item).bits.length = bf.bits.length := by
  unfold bloomInsert
  exact foldl_bloomStep_length h item _ bf.bits

theorem foldl_bloomInsert_mono (h : Int → Nat → Nat) (ps : List Int) :
    ∀ bf itemT, bloomContains h bf itemT = true →
      bloomContains h (ps.foldl (bloomInsert h) bf) itemT = true := by
  induction ps with
  | nil =>
    intro bf itemT hc
    simpa using hc
  | cons q t ih =>
    intro bf itemT hc
    rw [List.foldl_cons]
    exact ih _ _ (bloomContains_bloomInsert_mono h bf q itemT hc)

theorem bloomBuild_contains (h : Int → Nat → Nat) (ps : List Int) :
    ∀ bf0, 0 < bf0.bits.length → ∀ p ∈ ps,
      bloomContains h (bloomBuild h bf0 ps) p = true := by
  induction ps with
  | nil => simp
  | cons q t ih =>
    intro bf0 hpos p hp
    unfold bloomBuild at ih ⊢
    rw [List.foldl_cons]
    rcases List.mem_cons.mp hp with rfl | hpt
    · exact foldl_bloomInsert_mono h t (bloomInsert h bf0 p) p
        (bloomContains_bloomInsert_self h bf0 p hpos)
    · exact ih (bloomInsert h bf0 q) (by rw [bloomInsert_bits_length]; exact hpos) p hpt

theorem binSearchGo_sound (idx : List Index) (t : Int) :
    ∀ fuel left right e, binSearchGo idx t fuel left right = some e →
      e ∈ idx ∧ e.phoneNoPrefix = t := by
  intro fuel
  induction fuel with
  | zero =>
    intro l r e he
    simp [binSearchGo] at he
  | succ n ih =>
    intro l r e he
    unfold binSearchGo at he
    by_cases hlr : l < r
    · rw [if_pos hlr] at he
      dsimp only at he
      cases hm : idx.get? (l + (r - l) / 2) with
      | none =>
        rw [hm] at he
        simp at he
      | some e0 =>
        rw [hm] at he
        dsimp only at he
        by_cases heq : e0.phoneNoPrefix = t
        · rw [if_pos heq] at he
          obtain rfl := Option.some.inj he
          exact ⟨List.get?_mem hm, heq⟩
        · rw [if_neg heq] at he
          by_cases hlt : t < e0.phoneNoPrefix
          · rw [if_pos hlt] at he
            exact ih _ _ _ he
          · rw [if_neg hlt] at he
            exact ih _ _ _ he
    · rw [if_neg hlr] at he
      simp at he

theorem binSearchGo_complete (idx : List Index) (t : Int) (hs : IndexSorted idx) :
    ∀ fuel left right k (hk : k < idx.length),
      left ≤ k → k < right → right ≤ idx.length → right - left < fuel →
      (idx.get ⟨k, hk⟩).phoneNoPrefix = t →
      (binSearchGo idx t fuel left right).isSome = true := by
  have hmono : ∀ (i j : Fin idx.length), i < j →
      (idx.get i).phoneNoPrefix < (idx.get j).phoneNoPrefix :=
    List.pairwise_iff_get.mp hs
  intro fuel
  induction fuel with
  | zero =>
    intro l r k hk h1 h2 h3 h4 h5
    omega
  | succ n ih =>
    intro l r k hk h1 h2 h3 h4 h5
    have hlr : l < r := by omega
    have hmid_lt : l + (r - l) / 2 < idx.length := by omega
    unfold binSearchGo
    rw [if_pos hlr]
    dsimp only
    rw [List.get?_eq_get hmid_lt]
    dsimp only
    by_cases heq : (idx.get ⟨l + (r - l) / 2, hmid_lt⟩).phoneNoPrefix = t
    · rw [if_pos heq]
      rfl
    · rw [if_neg heq]
      by_cases hlt : t < (idx.get ⟨l + (r - l) / 2, hmid_lt⟩).phoneNoPrefix
      · rw [if_pos hlt]
        have hkmid : k < l + (r - l) / 2 := by
          rcases Nat.lt_trichotomy k (l + (r - l) / 2) with h | h | h
          · exact h
          · exfalso
            apply heq
            rw [← h5]
            exact congrArg (fun f => (idx.get f).phoneNoPrefix) (Fin.mk_eq_mk.mpr h.symm)
          · exfalso
            have := hmono ⟨l + (r - l) / 2, hmid_lt⟩ ⟨k, hk⟩ h
            rw [h5] at this
            omega
        exact ih l (l + (r - l) / 2) k hk h1 hkmid (by omega) (by omega) h5
      · rw [if_neg hlt]
        have hkmid : l + (r - l) / 2 < k := by
          rcases Nat.lt_trichotomy k (l + (r - l) / 2) with h | h | h
          · exfalso
            have := hmono ⟨k, hk⟩ ⟨l + (r - l) / 2, hmid_lt⟩ h
            rw [h5] at this
            omega
          · exfalso
            apply heq
            rw [← h5]
            exact congrArg (fun f => (idx.get f).phoneNoPrefix) (Fin.mk_eq_mk.mpr h.symm)
          · exact h
        exact ih (l + (r - l) / 2 + 1) r k hk (by omega) h2 h3 (by omega) h5

theorem binSearch_sound (idx : List Index) (t : Int) (e : Index)
    (he : binSearch idx t = some e) : e ∈ idx ∧ e.phoneNoPrefix = t :=
  binSearchGo_sound idx t (idx.length + 1) 0 idx.length e he

theorem binSearch_isSome_of_mem (idx : List Index) (t : Int) (hs : IndexSorted idx)
    (e : Index) (hmem : e ∈ idx) (het : e.phoneNoPrefix = t) :
    (binSearch idx t).isSome = true := by
  obtain ⟨⟨k, hk⟩, hget⟩ := List.mem_iff_get.mp hmem
  exact binSearchGo_complete idx t hs (idx.length + 1) 0 idx.length k hk
    (Nat.zero_le k) hk (Nat.le_refl _) (by omega) (by rw [hget]; exact het)

theorem binSearch_none (idx : List Index) (t : Int) (hs : IndexSorted idx)
    (hnone : binSearch idx t = none) : ∀ e ∈ idx, e.phoneNoPrefix ≠ t := by
  intro e he het
  have := binSearch_isSome_of_mem idx t hs e he het
  rw [hnone] at this
  simp at this

theorem sorted_mem_unique (idx : List Index) (hs : IndexSorted idx) {e1 e2 : Index}
    (h1 : e1 ∈ idx) (h2 : e2 ∈ idx)
    (ht : e1.phoneNoPrefix = e2.phoneNoPrefix) : e1 = e2 := by
  obtain ⟨i, hi⟩ := List.mem_iff_get.mp h1
  obtain ⟨j, hj⟩ := List.mem_iff_get.mp h2
  have hmono := List.pairwise_iff_get.mp hs
  rcases lt_trichotomy i j with h | h | h
  · have := hmono i j h
    rw [hi, hj, ht] at this
    exact absurd this (lt_irrefl _)
  · rw [← hi, ← hj, h]
  · have := hmono j i h
    rw [hi, hj, ht] at this
    exact absurd this (lt_irrefl _)

theorem find?_map_replace (m : List (Int × HashRecord)) (k : Int) (v : HashRecord)
    (hp : (m.find? (fun kv => kv.1 = k)).isSome = true) :
    (m.map (fun kv => if kv.1 = k then (k, v) else kv)).find? (fun kv => kv.1 = k) =
      some (k, v) := by
  induction m with
  | nil => simp at hp
  | cons kv t ih =>
    by_cases hk : kv.1 = k
    · simp only [List.map_cons, if_pos hk, List.find?_cons]
      simp
    · simp only [List.map_cons, if_neg hk, List.find?_cons]
      rw [show (decide (kv.1 = k)) = false by simp [hk]]
      rw [List.find?_cons, show (decide (kv.1 = k)) = false by simp [hk]] at hp
      exact ih hp

theorem find?_map_replace_ne (m : List (Int × HashRecord)) (k : Int) (v : HashRecord)
    (k2 : Int) (hne : k2 ≠ k) :
    (m.map (fun kv => if kv.1 = k then (k, v) else kv)).find? (fun kv => kv.1 = k2) =
      m.find? (fun kv => kv.1 = k2) := by
  induction m with
  | nil => rfl
  | cons kv t ih =>
    by_cases hk : kv.1 = k
    · simp only [List.map_cons, if_pos hk, List.find?_cons]
      rw [show (decide ((k, v).1 = k2)) = false by simp [Ne.symm hne]]
      rw [show (decide (kv.1 = k2)) = false by simp [hk, Ne.symm hne]]
      exact ih
    · simp only [List.map_cons, if_neg hk, List.find?_cons]
      cases hkv2 : decide (kv.1 = k2) with
      | true => rfl
      | false => exact ih

theorem lookupAssoc_insertAssoc_self (m : List (Int × HashRecord)) (k : Int)
    (v : HashRecord) : lookupAssoc (insertAssoc m k v) k = some v := by
  unfold lookupAssoc insertAssoc
  by_cases hp : (m.find? (fun kv => kv.1 = k)).isSome = true
  · rw [if_pos hp, find?_map_replace m k v hp]
    rfl
  · rw [if_neg hp, List.find?_append]
    rw [show m.find? (fun kv => kv.1 = k) = none from Option.not_isSome_iff_eq_none.mp hp]
    simp

theorem lookupAssoc_insertAssoc_ne (m : List (Int × HashRecord)) (k : Int)
    (v : HashRecord) (k2 : Int) (hne : k2 ≠ k) :
    lookupAssoc (insertAssoc m k v) k2 = lookupAssoc m k2 := by
  unfold lookupAssoc insertAssoc
  by_cases hp : (m.find? (fun kv => kv.1 = k)).isSome = true
  · rw [if_pos hp, find?_map_replace_ne m k v k2 hne]
  · rw [if_neg hp, List.find?_append]
    rw [show List.find? (fun kv => kv.1 = k2) [(k, v)] = none by
      simp [List.find?, Ne.symm hne]]
    rw [Option.or_none]

theorem buildPhoneMapGo_lookup (records : List Nat) :
    ∀ (idx : List Index) (m0 m : List (Int × HashRecord)),
      buildPhoneMapGo records m0 idx = some (.ok m) →
      List.Pairwise (fun a b => a.phoneNoPrefix ≠ b.phoneNoPrefix) idx →
      ∀ p : Int,
        ((∀ e ∈ idx, e.phoneNoPrefix ≠ p) → lookupAssoc m p = lookupAssoc m0 p) ∧
        (∀ e ∈ idx, e.phoneNoPrefix = p →
          ∃ r, parseRecordData records (i32AsUsize e.recordsOffset) = some (.ok r) ∧
            lookupAssoc m p =
              some ⟨r.province, r.city, r.zipCode, r.areaCode, e.cardType⟩) := by
  intro idx
  induction idx with
  | nil =>
    intro m0 m hb _ p
    unfold buildPhoneMapGo at hb
    obtain rfl : m0 = m := by
      have := Option.some.inj hb
      exact Except.ok.inj this
    constructor
    · intro _
      rfl
    · intro e he
      simp at he
  | cons e0 rest ih =>
    intro m0 m hb hpw p
    unfold buildPhoneMapGo at hb
    cases hpr : parseRecordData records (i32AsUsize e0.recordsOffset) with
    | none =>
      rw [hpr] at hb
      simp at hb
    | some res =>
      rw [hpr] at hb
      cases res with
      | error k =>
        simp at hb
      | ok r =>
        dsimp only at hb
        have hpw_head := (List.pairwise_cons.mp hpw).1
        have hpw_rest := (List.pairwise_cons.mp hpw).2
        have IH := ih
          (insertAssoc m0 e0.phoneNoPrefix
            ⟨r.province, r.city, r.zipCode, r.areaCode, e0.cardType⟩) m hb hpw_rest p
        constructor
        · intro habs
          have h0 : e0.phoneNoPrefix ≠ p := habs e0 (List.mem_cons_self e0 rest)
          rw [IH.1 (fun e he => habs e (List.mem_cons_of_mem _ he))]
          exact lookupAssoc_insertAssoc_ne m0 e0.phoneNoPrefix _ p (Ne.symm h0)
        · intro e he hep
          rcases List.mem_cons.mp he with rfl | hrest
          · refine ⟨r, hpr, ?_⟩
            have habs : ∀ e2 ∈ rest, e2.phoneNoPrefix ≠ p := by
              intro e2 he2 h2
              exact hpw_head e2 he2 (by rw [hep, h2])
            rw [IH.1 habs, ← hep]
            exact lookupAssoc_insertAssoc_self m0 e.phoneNoPrefix _
          · exact IH.2 e hrest hep

theorem buildPhoneMap_lookup (records : List Nat) (idx : List Index)
    (m : List (Int × HashRecord)) (hb : buildPhoneMap records idx = some (.ok m))
    (huniq : List.Pairwise (fun a b => a.phoneNoPrefix ≠ b.phoneNoPrefix) idx)
    (p : Int) :
    ((∀ e ∈ idx, e.phoneNoPrefix ≠ p) → lookupAssoc m p = none) ∧
    (∀ e ∈ idx, e.phoneNoPrefix = p →
      ∃ r, parseRecordData records (i32AsUsize e.recordsOffset) = some (.ok r) ∧
        lookupAssoc m p =
          some ⟨r.province, r.city, r.zipCode, r.areaCode, e.cardType⟩) := by
  have h := buildPhoneMapGo_lookup records idx [] m hb huniq p
  exact ⟨fun habs => h.1 habs, h.2⟩

theorem getD_mem_of_lt {l : List Nat} {i : Nat} (h : i < l.length) : l.getD i 0 ∈ l := by
  rw [List.getD_eq_get?, List.get?_eq_get h, Option.getD_some]
  exact List.get_mem l i h

theorem prefixFold_error (l : List Nat) (k : ErrorKind) :
    l.foldl
      (fun acc d => acc.bind (fun r =>
        if 48 ≤ d ∧ d ≤ 57 then Except.ok (r * 10 + ((d - 48 : Nat) : Int))
        else Except.error ErrorKind.InvalidPhoneDatabase))
      (Except.error k) = Except.error k := by
  induction l with
  | nil => rfl
  | cons d t ih =>
    rw [List.foldl_cons]
    exact ih

theorem prefixFold_digits (l : List Nat) :
    ∀ a : Nat, l.all (fun d => isDigitByte d) = true →
      l.foldl
        (fun acc d => acc.bind (fun r =>
          if 48 ≤ d ∧ d ≤ 57 then Except.ok (r * 10 + ((d - 48 : Nat) : Int))
          else Except.error ErrorKind.InvalidPhoneDatabase))
        (Except.ok ((a : Nat) : Int)) =
        Except.ok ((l.foldl (fun x d => x * 10 + (d - 48)) a : Nat) : Int) := by
  induction l with
  | nil => intro a _; rfl
  | cons d t ih =>
    intro a hall
    rw [List.all_cons, Bool.and_eq_true] at hall
    have hd := isDigitByte_le hall.1
    rw [List.foldl_cons, List.foldl_cons]
    have hstep :
        (Except.ok ((a : Nat) : Int)).bind (fun r =>
          if 48 ≤ d ∧ d ≤ 57 then Except.ok (r * 10 + ((d - 48 : Nat) : Int))
          else Except.error ErrorKind.InvalidPhoneDatabase) =
        Except.ok ((a * 10 + (d - 48) : Nat) : Int) := by
      show (if 48 ≤ d ∧ d ≤ 57 then
          Except.ok (((a : Nat) : Int) * 10 + ((d - 48 : Nat) : Int))
        else Except.error ErrorKind.InvalidPhoneDatabase) = _
      rw [if_pos (by omega)]
      exact congrArg Except.ok (by push_cast; ring)
    rw [hstep]
    exact ih (a * 10 + (d - 48)) hall.2

theorem prefixFold_nonDigit (l : List Nat) :
    ∀ a : Int, l.all (fun d => isDigitByte d) = false →
      l.foldl
        (fun acc d => acc.bind (fun r =>
          if 48 ≤ d ∧ d ≤ 57 then Except.ok (r * 10 + ((d - 48 : Nat) : Int))
          else Except.error ErrorKind.InvalidPhoneDatabase))
        (Except.ok a) = Except.error ErrorKind.InvalidPhoneDatabase := by
  induction l with
  | nil => intro a hall; simp at hall
  | cons d t ih =>
    intro a hall
    rw [List.foldl_cons]
    by_cases hd : isDigitByte d = true
    · have hdt := isDigitByte_le hd
      have hallt : t.all (fun d => isDigitByte d) = false := by
        rw [List.all_cons, hd, Bool.true_and] at hall
        exact hall
      have hstep :
          (Except.ok a).bind (fun r =>
            if 48 ≤ d ∧ d ≤ 57 then Except.ok (r * 10 + ((d - 48 : Nat) : Int))
            else Except.error ErrorKind.InvalidPhoneDatabase) =
          Except.ok (a * 10 + ((d - 48 : Nat) : Int)) := by
        show (if 48 ≤ d ∧ d ≤ 57 then _ else _) = _
        rw [if_pos (by omega)]
      rw [hstep]
      exact ih _ hallt
    · have hstep :
          (Except.ok a).bind (fun r =>
            if 48 ≤ d ∧ d ≤ 57 then Except.ok (r * 10 + ((d - 48 : Nat) : Int))
            else Except.error ErrorKind.InvalidPhoneDatabase) =
          Except.error ErrorKind.InvalidPhoneDatabase := by
        show (if 48 ≤ d ∧ d ≤ 57 then _ else _) = _
        rw [if_neg (by unfold isDigitByte at hd; simp at hd; omega)]
      rw [hstep]
      exact prefixFold_error t _

theorem parsePhonePrefix_valid (no : List Nat) (h7 : 7 ≤ no.length)
    (hall7 : (no.take 7).all (fun d => isDigitByte d) = true) :
    parsePhonePrefix no = .ok ((digitsVal (no.take 7) : Nat) : Int) := by
  unfold parsePhonePrefix
  rw [if_neg (by omega)]
  have := prefixFold_digits (no.take 7) 0 hall7
  simpa [digitsVal] using this

theorem parsePhonePrefix_nonDigit (no : List Nat) (h7 : 7 ≤ no.length)
    (hex : ∃ i, i < 7 ∧ isDigitByte (no.getD i 0) = false) :
    parsePhonePrefix no = .error .InvalidPhoneDatabase := by
  unfold parsePhonePrefix
  rw [if_neg (by omega)]
  apply prefixFold_nonDigit
  obtain ⟨i, hi7, hnd⟩ := hex
  have hgd : (no.take 7).getD i 0 = no.getD i 0 := by
    rw [List.getD_eq_get?, List.getD_eq_get?, List.get?_take hi7]
  have hi_len : i < (no.take 7).length := by
    rw [take7_length h7]
    exact hi7
  cases hall : (no.take 7).all (fun d => isDigitByte d) with
  | false => rfl
  | true =>
    exfalso
    rw [List.all_eq_true] at hall
    have := hall _ (getD_mem_of_lt hi_len)
    rw [hgd, hnd] at this
    exact Bool.false_ne_true this

theorem parseRecordData_error (records : List Nat) (offset : Nat) (k : ErrorKind)
    (h : parseRecordData records offset = some (.error k)) :
    k = .InvalidPhoneDatabase := by
  unfold parseRecordData at h
  dsimp only at h
  split at h
  · simp at h
  · split at h
    · simp at h
    · split at h
      · simp only [Option.some.injEq, Except.error.injEq] at h
        exact h.symm
      · split at h
        · split at h
          · simp at h
          · simp only [Option.some.injEq, Except.error.injEq] at h
            exact h.symm
        · simp only [Option.some.injEq, Except.error.injEq] at h
          exact h.symm

theorem libParseToRecord_error (records : List Nat) (offset : Nat) (k : ErrorKind)
    (h : libParseToRecord records offset = some (.error k)) :
    k = .InvalidPhoneDatabase := by
  unfold libParseToRecord at h
  dsimp only at h
  split at h
  · simp at h
  · split at h
    · simp at h
    · split at h
      · split at h
        · simp at h
        · simp only [Option.some.injEq, Except.error.injEq] at h
          exact h.symm
      · simp only [Option.some.injEq, Except.error.injEq] at h
        exact h.symm

theorem fromU8_error (i : Nat) (k : ErrorKind) (h : CardType.fromU8 i = .error k) :
    k = .InvalidOpNo := by
  unfold CardType.fromU8 at h
  split at h <;> simp_all

theorem parseI32_error_of_nonDigit (l : List Nat) (i : Nat) (h1 : 1 ≤ i)
    (hi : i < l.length) (hd : isDigitByte (l.getD i 0) = false) :
    parseI32 l = .error () := by
  cases l with
  | nil => simp at hi
  | cons c rest =>
    have hi_rest : i - 1 < rest.length := by
      simp only [List.length_cons] at hi
      omega
    have hgd : (c :: rest).getD i 0 = rest.getD (i - 1) 0 := by
      cases i with
      | zero => omega
      | succ n => rfl
    have hall_rest : rest.all (fun d => isDigitByte d) = false := by
      cases hall : rest.all (fun d => isDigitByte d) with
      | false => rfl
      | true =>
        exfalso
        rw [List.all_eq_true] at hall
        have := hall _ (getD_mem_of_lt hi_rest)
        rw [hgd] at hd
        rw [hd] at this
        exact Bool.false_ne_true this
    have hall_full : (c :: rest).all (fun d => isDigitByte d) = false := by
      rw [List.all_cons, hall_rest, Bool.and_false]
    have hrest_ne : rest.isEmpty = false := by
      cases rest with
      | nil => simp at hi_rest
      | cons x t => rfl
    unfold parseI32
    dsimp only
    by_cases hc43 : c = 43
    · rw [if_pos hc43]
      unfold parseDigitsI32
      rw [if_neg (by rw [hrest_ne]; exact Bool.false_ne_true),
        if_neg (by rw [hall_rest]; exact Bool.false_ne_true)]
    · rw [if_neg hc43]
      by_cases hc45 : c = 45
      · rw [if_pos hc45]
        unfold parseDigitsI32
        rw [if_neg (by rw [hrest_ne]; exact Bool.false_ne_true),
          if_neg (by rw [hall_rest]; exact Bool.false_ne_true)]
      · rw [if_neg hc45]
        unfold parseDigitsI32
        rw [if_neg (by exact Bool.false_ne_true),
          if_neg (by rw [hall_full]; exact Bool.false_ne_true)]

theorem validUtf8_cons_ascii {b : Nat} (t : List Nat) (hb : b < 128) :
    validUtf8 (b :: t) = validUtf8 t := by
  unfold validUtf8
  rw [utf8Scan]
  rw [if_pos hb]

theorem validUtf8_drop_of_ascii :
    ∀ (n : Nat) (l : List Nat), validUtf8 l = true →
      (l.take n).all (fun b => decide (b < 128)) = true → validUtf8 (l.drop n) = true := by
  intro n
  induction n with
  | zero =>
    intro l hv _
    simpa using hv
  | succ k ih =>
    intro l hv hall
    cases l with
    | nil => rfl
    | cons b t =>
      rw [List.take_succ_cons, List.all_cons, Bool.and_eq_true] at hall
      have hb : b < 128 := by simpa using hall.1
      rw [validUtf8_cons_ascii t hb] at hv
      rw [List.drop_succ_cons]
      exact ih t hv hall.2

theorem validUtf8_head_not_cont (l : List Nat) (hv : validUtf8 l = true) :
    isContinuationByte (l.headD 0) = false := by
  cases l with
  | nil => rfl
  | cons b t =>
    rw [List.headD_cons]
    by_cases hc : isContinuationByte b = true
    · exfalso
      have hb : 128 ≤ b ∧ b ≤ 191 := by
        unfold isContinuationByte at hc
        simpa using hc
      unfold validUtf8 at hv
      rw [utf8Scan] at hv
      repeat rw [if_neg (by omega)] at hv
      exact Bool.false_ne_true hv
    · simpa using hc

theorem digits_ascii {l : List Nat} (hall : l.all (fun b => isDigitByte b) = true) :
    l.all (fun b => decide (b < 128)) = true := by
  rw [List.all_eq_true] at hall ⊢
  intro x hx
  have := isDigitByte_le (hall x hx)
  simp only [decide_eq_true_eq]
  omega

theorem not_cont_at7 {no : List Nat} (hv : validUtf8 no = true)
    (hascii : (no.take 7).all (fun b => decide (b < 128)) = true) :
    isContinuationByte (no.getD 7 0) = false := by
  have hdrop := validUtf8_drop_of_ascii 7 no hv hascii
  have hhead := validUtf8_head_not_cont (no.drop 7) hdrop
  have hconv : (no.drop 7).headD 0 = no.getD 7 0 := by
    cases hget : no.get? 7 with
    | none =>
      have hlen : no.length ≤ 7 := by
        rw [← List.get?_eq_none]
        exact hget
      rw [List.drop_eq_nil_of_le hlen, List.getD_eq_get?, hget]
      rfl
    | some x =>
      have h7 : 7 < no.length := by
        by_contra hge
        push_neg at hge
        rw [List.get?_eq_none.mpr hge] at hget
        simp at hget
      rw [List.getD_eq_get?, hget, Option.getD_some]
      have : (no.drop 7).head? = some x := by
        rw [List.head?_drop]
        rw [← List.get?_eq_getElem?]
        exact hget
      cases hd : no.drop 7 with
      | nil =>
        rw [hd] at this
        simp at this
      | cons y t =>
        rw [hd] at this
        rw [List.head?_cons] at this
        rw [List.headD_cons]
        exact Option.some.inj this
  rw [← hconv]
  exact hhead

theorem cacheFind?_map_replace (c : Cache) (k : List Nat) (v : PhoneNoInfo)
    (hp : (c.find? (fun kv => kv.1 = k)).isSome = true) :
    (c.map (fun kv => if kv.1 = k then (k, v) else kv)).find? (fun kv => kv.1 = k) =
      some (k, v) := by
  induction c with
  | nil => simp at hp
  | cons kv t ih =>
    by_cases hk : kv.1 = k
    · simp only [List.map_cons, if_pos hk, List.find?_cons]
      simp
    · simp only [List.map_cons, if_neg hk, List.find?_cons]
      rw [show (decide (kv.1 = k)) = false by simp [hk]]
      rw [List.find?_cons, show (decide (kv.1 = k)) = false by simp [hk]] at hp
      exact ih hp

theorem cacheFind?_map_replace_ne (c : Cache) (k : List Nat) (v : PhoneNoInfo)
    (k2 : List Nat) (hne : k2 ≠ k) :
    (c.map (fun kv => if kv.1 = k then (k, v) else kv)).find? (fun kv => kv.1 = k2) =
      c.find? (fun kv => kv.1 = k2) := by
  induction c with
  | nil => rfl
  | cons kv t ih =>
    by_cases hk : kv.1 = k
    · simp only [List.map_cons, if_pos hk, List.find?_cons]
      rw [show (decide ((k, v).1 = k2)) = false by simp [Ne.symm hne]]
      rw [show (decide (kv.1 = k2)) = false by simp [hk, Ne.symm hne]]
      exact ih
    · simp only [List.map_cons, if_neg hk, List.find?_cons]
      cases hkv2 : decide (kv.1 = k2) with
      | true => rfl
      | false => exact ih

theorem cacheLookup_cacheInsert_self (c : Cache) (k : List Nat) (v : PhoneNoInfo) :
    cacheLookup (cacheInsert c k v) k = some v := by
  unfold cacheLookup cacheInsert
  by_cases hp : (c.find? (fun kv => kv.1 = k)).isSome = true
  · rw [if_pos hp, cacheFind?_map_replace c k v hp]
    rfl
  · rw [if_neg hp, List.find?_append]
    rw [show c.find? (fun kv => kv.1 = k) = none from Option.not_isSome_iff_eq_none.mp hp]
    simp

theorem cacheLookup_cacheInsert_ne (c : Cache) (k : List Nat) (v : PhoneNoInfo)
    (k2 : List Nat) (hne : k2 ≠ k) :
    cacheLookup (cacheInsert c k v) k2 = cacheLookup c k2 := by
  unfold cacheLookup cacheInsert
  by_cases hp : (c.find? (fun kv => kv.1 = k)).isSome = true
  · rw [if_pos hp, cacheFind?_map_replace_ne c k v k2 hne]
  · rw [if_neg hp, List.find?_append]
    rw [show List.find? (fun kv => kv.1 = k2) [(k, v)] = none by
      simp [List.find?, Ne.symm hne]]
    rw [Option.or_none]

theorem cacheInsert_length_le (c : Cache) (k : List Nat) (v : PhoneNoInfo) :
    (cacheInsert c k v).length ≤ c.length + 1 := by
  unfold cacheInsert
  split
  · rw [List.length_map]
    omega
  · rw [List.length_append]
    simp

/-- With a coherent cache, `lib.rs` `find` computes precisely the cache-free
specification (`InvalidLength` on a bad length, the core lookup otherwise),
whatever the cache configuration. -/
theorem libFind_map_fst (records : List Nat) (idx : List Index) (en : Bool) (mx : Nat)
    (cache : Cache) (no : List Nat)
    (hco : Coherent ⟨records, idx, en, mx⟩ cache) :
    (libFind ⟨records, idx, en, mx⟩ cache no).map Prod.fst =
      libFindSpec ⟨records, idx, en, mx⟩ no := by
  unfold libFind libFindSpec
  by_cases hlen : no.length < 7 ∨ 11 < no.length
  · rw [if_pos hlen, if_pos hlen]
    rfl
  · rw [if_neg hlen, if_neg hlen]
    dsimp only
    cases hsc : (if en = true then cacheLookup cache no else none) with
    | some v =>
      have hlk : cacheLookup cache no = some v := by
        cases en
        · simp at hsc
        · simpa using hsc
      rw [hco no v hlk]
      rfl
    | none =>
      cases hcore : libFindCore ⟨records, idx, en, mx⟩ no with
      | none => rfl
      | some res =>
        cases res with
        | error k => rfl
        | ok info => rfl

/-- A single `lib.rs` `find` call either leaves the cache untouched or — on
a successful lookup with the cache enabled and strictly below its maximum
size — inserts the result under the exact input key. -/
theorem libFind_cache_characterization (records : List Nat) (idx : List Index)
    (en : Bool) (mx : Nat) (cache : Cache) (no : List Nat)
    (res : Except ErrorKind PhoneNoInfo) (c2 : Cache)
    (hfind : libFind ⟨records, idx, en, mx⟩ cache no = some (res, c2)) :
    c2 = cache ∨
      (∃ info, res = .ok info ∧ en = true ∧ cache.length < mx ∧
        libFindCore ⟨records, idx, en, mx⟩ no = some (.ok info) ∧
        c2 = cacheInsert cache no info) := by
  unfold libFind at hfind
  by_cases hlen : no.length < 7 ∨ 11 < no.length
  · rw [if_pos hlen] at hfind
    simp only [Option.some.injEq, Prod.mk.injEq] at hfind
    exact Or.inl hfind.2.symm
  · rw [if_neg hlen] at hfind
    dsimp only at hfind
    cases hsc : (if en = true then cacheLookup cache no else none) with
    | some v =>
      rw [hsc] at hfind
      simp only [Option.some.injEq, Prod.mk.injEq] at hfind
      exact Or.inl hfind.2.symm
    | none =>
      rw [hsc] at hfind
      cases hcore : libFindCore ⟨records, idx, en, mx⟩ no with
      | none =>
        rw [hcore] at hfind
        simp at hfind
      | some r2 =>
        rw [hcore] at hfind
        cases r2 with
        | error k =>
          simp only [Option.some.injEq, Prod.mk.injEq] at hfind
          exact Or.inl hfind.2.symm
        | ok info =>
          simp only [Option.some.injEq, Prod.mk.injEq] at hfind
          obtain ⟨hres, hc2⟩ := hfind
          by_cases hins : en = true ∧ cache.length < mx
          · rw [if_pos hins] at hc2
            exact Or.inr ⟨info, hres.symm, hins.1, hins.2, rfl, hc2.symm⟩
          · rw [if_neg hins] at hc2
            exact Or.inl hc2.symm

/-- A single `lib.rs` `find` call preserves cache coherence. -/
theorem libFind_preserves_coherent (records : List Nat) (idx : List Index)
    (en : Bool) (mx : Nat) (cache : Cache) (no : List Nat)
    (res : Except ErrorKind PhoneNoInfo) (c2 : Cache)
    (hco : Coherent ⟨records, idx, en, mx⟩ cache)
    (hfind : libFind ⟨records, idx, en, mx⟩ cache no = some (res, c2)) :
    Coherent ⟨records, idx, en, mx⟩ c2 := by
  rcases libFind_cache_characterization records idx en mx cache no res c2 hfind with
    h | ⟨info, _, _, _, hcore, h⟩
  · rw [h]
    exact hco
  · rw [h]
    intro k v hlk
    by_cases hk : k = no
    · subst hk
      rw [cacheLookup_cacheInsert_self] at hlk
      obtain rfl := Option.some.inj hlk
      exact hcore
    · rw [cacheLookup_cacheInsert_ne cache no info k hk] at hlk
      exact hco k v hlk

/-- The core lookup only inspects the first seven bytes of the number: on a
number whose first seven bytes are digits it agrees with the lookup of the
seven-byte prefix alone. -/
theorem libFindCore_take7 (records : List Nat) (idx : List Index) (en : Bool)
    (mx : Nat) (no : List Nat) (h7 : 7 ≤ no.length)
    (hdig : (no.take 7).all (fun b => isDigitByte b) = true) :
    libFindCore ⟨records, idx, en, mx⟩ no =
      libFindCore ⟨records, idx, en, mx⟩ (no.take 7) := by
  unfold libFindCore
  rw [parsePhonePrefix_valid no h7 hdig,
    parsePhonePrefix_valid (no.take 7) (by rw [take7_length h7])
      (by rw [List.take_take]; simpa using hdig)]
  rw [List.take_take]
  norm_num

/-- Claim C1: on one loaded database (records blob and index from the same
file, index sorted as the file format requires, hash map successfully built
from it, bloom filter populated from it), the three strategies return
identical results — the same `PhoneNoInfo` (all five fields), or the same
error — for every valid number string. -/
theorem claim_C1 (records : List Nat) (idx : List Index)
    (m : List (Int × HashRecord)) (h : Int → Nat → Nat) (bf0 : BloomFilter)
    (no : List Nat) (hs : IndexSorted idx)
    (hbuild : buildPhoneMap records idx = some (.ok m))
    (hpos : 0 < bf0.bits.length) (hno : ValidNumber no) :
    findHash m no = findBinary ⟨records, idx⟩ no ∧
    findBloom h ⟨records, idx, bloomBuild h bf0 (idx.map (fun e => e.phoneNoPrefix))⟩ no =
      findBinary ⟨records, idx⟩ no := by
  have hnp := validNumber_no_panic hno
  have hparse := strategyParse_valid hno
  have hlen : ¬ (no.length < 7 ∨ 11 < no.length) := by
    obtain ⟨h7, h11, _⟩ := hno
    omega
  have huniq : List.Pairwise (fun a b => a.phoneNoPrefix ≠ b.phoneNoPrefix) idx :=
    hs.imp (fun hlt => ne_of_lt hlt)
  constructor
  · unfold findHash findBinary
    dsimp only
    rw [if_neg hlen, if_neg hnp, hparse, if_neg hlen, if_neg hnp]
    dsimp only
    cases hbs : binSearch idx ((digitsVal (no.take 7) : Nat) : Int) with
    | some e =>
      obtain ⟨hmem, hpe⟩ := binSearch_sound idx _ e hbs
      obtain ⟨r, hpr, hlook⟩ :=
        (buildPhoneMap_lookup records idx m hbuild huniq _).2 e hmem hpe
      rw [hlook]
      dsimp only
      rw [hpr]
      dsimp only
      unfold buildPhoneInfo
      cases hct : CardType.fromU8 e.cardType with
      | error k => rfl
      | ok ct => rfl
    | none =>
      have habs := binSearch_none idx _ hs hbs
      rw [(buildPhoneMap_lookup records idx m hbuild huniq _).1 habs]
  · unfold findBloom findBinary
    dsimp only
    rw [if_neg hlen, if_neg hnp, hparse, if_neg hlen, if_neg hnp]
    dsimp only
    cases hbs : binSearch idx ((digitsVal (no.take 7) : Nat) : Int) with
    | some e =>
      obtain ⟨hmem, hpe⟩ := binSearch_sound idx _ e hbs
      have hmemp : ((digitsVal (no.take 7) : Nat) : Int) ∈
          idx.map (fun e => e.phoneNoPrefix) :=
        List.mem_map.mpr ⟨e, hmem, hpe⟩
      rw [bloomBuild_contains h (idx.map (fun e => e.phoneNoPrefix)) bf0 hpos _ hmemp]
      simp only [Bool.not_true, Bool.false_eq_true, if_false]
    | none =>
      cases hc : bloomContains h
          (bloomBuild h bf0 (idx.map (fun e => e.phoneNoPrefix)))
          ((digitsVal (no.take 7) : Nat) : Int) with
      | true =>
        simp only [Bool.not_true, Bool.false_eq_true, if_false]
      | false =>
        simp only [Bool.not_false, if_true]

/-- Witness for claim C1 at the concrete database and the number
`"1808683"`. -/
theorem claim_C1_witness :
    findHash [(1808683, ⟨[65, 66], [67, 68], [69, 70], [71, 72], 1⟩)]
        [49, 56, 48, 56, 54, 56, 51] =
      findBinary ⟨cRecords, cIndex⟩ [49, 56, 48, 56, 54, 56, 51] ∧
    findBloom cHash
        ⟨cRecords, cIndex, bloomBuild cHash ⟨[0, 0], 2, 0⟩ (cIndex.map (fun e => e.phoneNoPrefix))⟩
        [49, 56, 48, 56, 54, 56, 51] =
      findBinary ⟨cRecords, cIndex⟩ [49, 56, 48, 56, 54, 56, 51] :=
  claim_C1 cRecords cIndex [(1808683, ⟨[65, 66], [67, 68], [69, 70], [71, 72], 1⟩)]
    cHash ⟨[0, 0], 2, 0⟩ [49, 56, 48, 56, 54, 56, 51]
    (List.pairwise_singleton _ _) (by decide) (by decide)
    ⟨by decide, by decide, by decide⟩

/-- Claim C3: every prefix inserted into the bloom filter during
construction is reported present by `BloomFilter::contains` (no false
negatives, for any hash function and any starting filter with a non-empty
bit array), and consequently the bloom-strategy `find` on a valid number
whose prefix is present in the index behaves exactly like the non-filtered
search path — it is never short-circuited to `NotFound` by the filter. -/
theorem claim_C3 (h : Int → Nat → Nat) (bf0 : BloomFilter) (records : List Nat)
    (idx : List Index) (no : List Nat) (hpos : 0 < bf0.bits.length) :
    (∀ q ∈ idx.map (fun e => e.phoneNoPrefix),
        bloomContains h (bloomBuild h bf0 (idx.map (fun e => e.phoneNoPrefix))) q = true) ∧
    (ValidNumber no →
      ((digitsVal (no.take 7) : Nat) : Int) ∈ idx.map (fun e => e.phoneNoPrefix) →
      findBloom h ⟨records, idx, bloomBuild h bf0 (idx.map (fun e => e.phoneNoPrefix))⟩ no =
        findBloomSlow ⟨records, idx, bloomBuild h bf0 (idx.map (fun e => e.phoneNoPrefix))⟩ no) := by
  have hcont := bloomBuild_contains h (idx.map (fun e => e.phoneNoPrefix)) bf0 hpos
  refine ⟨hcont, ?_⟩
  intro hno hmem
  have hnp := validNumber_no_panic hno
  have hparse := strategyParse_valid hno
  obtain ⟨h7, h11, hall⟩ := hno
  unfold findBloom findBloomSlow
  dsimp only
  rw [if_neg (by omega : ¬ (no.length < 7 ∨ 11 < no.length)), if_neg hnp, hparse]
  dsimp only
  rw [hcont _ hmem]
  simp only [Bool.not_true, Bool.false_eq_true, if_false]
  rw [if_neg (by omega : ¬ (no.length < 7 ∨ 11 < no.length)), if_neg hnp]

/-- Witness for claim C3 at a concrete hash function, filter, database and
number. -/
theorem claim_C3_witness :
    bloomContains cHash
        (bloomBuild cHash ⟨[0, 0], 2, 0⟩ (cIndex.map (fun e => e.phoneNoPrefix)))
        1808683 = true ∧
    findBloom cHash
        ⟨cRecords, cIndex, bloomBuild cHash ⟨[0, 0], 2, 0⟩ (cIndex.map (fun e => e.phoneNoPrefix))⟩
        [49, 56, 48, 56, 54, 56, 51] =
      findBloomSlow
        ⟨cRecords, cIndex, bloomBuild cHash ⟨[0, 0], 2, 0⟩ (cIndex.map (fun e => e.phoneNoPrefix))⟩
        [49, 56, 48, 56, 54, 56, 51] :=
  ⟨(claim_C3 cHash ⟨[0, 0], 2, 0⟩ cRecords cIndex [49, 56, 48, 56, 54, 56, 51]
      (by decide)).1 1808683 (by decide),
   (claim_C3 cHash ⟨[0, 0], 2, 0⟩ cRecords cIndex [49, 56, 48, 56, 54, 56, 51]
      (by decide)).2 ⟨by decide, by decide, by decide⟩ (by decide)⟩

/-- Claim C5, counterexample: `utils::parse_record_data` (and the identical
copies) does NOT turn every bad offset into an error — an offset below 8
(here 0, which underflows `offset - 8`) or one past the end of the blob
(here 100) panics, modelled by `none`, instead of returning a
`CorruptDatabase` error. -/
theorem claim_C5_cex :
    parseRecordData cRecords 0 = none ∧ parseRecordData cRecords 100 = none := by
  decide

/-- Claim C5 as amended: for every offset that is at least 8 and lands
inside (or at the end of) the records blob, record decoding never panics —
it either succeeds or fails with the corruption error
`InvalidPhoneDatabase`, in both the shared decoder
(`utils::parse_record_data`) and the `lib.rs` private decoder
(`PhoneData::parse_to_record`).  Offsets below 8 or beyond the blob panic
(see the counterexample). -/
theorem claim_C5 (records : List Nat) (offset : Nat) (h8 : 8 ≤ offset)
    (hlen : offset - 8 ≤ records.length) :
    ((∃ r, parseRecordData records offset = some (.ok r)) ∨
      parseRecordData records offset = some (.error .InvalidPhoneDatabase)) ∧
    ((∃ r, libParseToRecord records offset = some (.ok r)) ∨
      libParseToRecord records offset = some (.error .InvalidPhoneDatabase)) := by
  have h1 : ¬ offset < 8 := by omega
  have h2 : ¬ records.length < offset - 8 := by omega
  constructor
  · unfold parseRecordData
    rw [if_neg h1, if_neg h2]
    dsimp only
    split
    · exact Or.inr rfl
    · split
      · split
        · exact Or.inl ⟨_, rfl⟩
        · exact Or.inr rfl
      · exact Or.inr rfl
  · unfold libParseToRecord
    rw [if_neg h1, if_neg h2]
    dsimp only
    split
    · split
      · exact Or.inl ⟨_, rfl⟩
      · exact Or.inr rfl
    · exact Or.inr rfl

/-- Witness for the amended claim C5 at the concrete database and offset
8. -/
theorem claim_C5_witness :
    ((∃ r, parseRecordData cRecords 8 = some (.ok r)) ∨
      parseRecordData cRecords 8 = some (.error .InvalidPhoneDatabase)) ∧
    ((∃ r, libParseToRecord cRecords 8 = some (.ok r)) ∨
      libParseToRecord cRecords 8 = some (.error .InvalidPhoneDatabase)) :=
  claim_C5 cRecords 8 (by decide) (by decide)

/-- Claim C9, counterexample: for a header whose last four bytes encode
`v = 2 ^ 31` (`[0, 0, 0, 0x80]`), the loader does NOT compute `v - 8` as
the records length — `four_u8_to_i32` reads the bytes as a signed i32 and
`as u64` sign-extends, so the computed length is
`2 ^ 64 - 2 ^ 31 - 8`. -/
theorem claim_C9_cex :
    computedRecordsLen [0, 0, 0, 128] ≠ u32LE [0, 0, 0, 128] - 8 ∧
    computedRecordsLen [0, 0, 0, 128] = 2 ^ 64 - 2 ^ 31 - 8 := by
  constructor
  · decide
  · decide

/-- Claim C9 as amended: the last four header bytes are read as a SIGNED
little-endian 32-bit integer and sign-extended by `as u64`.  For an encoded
value `v` with `8 ≤ v < 2 ^ 31` the loader's records length is exactly
`v - 8`; for `v ≥ 2 ^ 31` it is `2 ^ 64 - 2 ^ 32 + v - 8`, not `v - 8`. -/
theorem claim_C9 (b : List Nat) (hb : ∀ x ∈ b, x < 256) :
    (8 ≤ u32LE b → u32LE b < 2 ^ 31 → computedRecordsLen b = u32LE b - 8) ∧
    (2 ^ 31 ≤ u32LE b → computedRecordsLen b = 2 ^ 64 - 2 ^ 32 + u32LE b - 8) := by
  have hgetD : ∀ i, b.getD i 0 < 256 := by
    intro i
    rw [List.getD_eq_get?]
    cases h : b.get? i with
    | none => simp
    | some x => simpa using hb x (List.get?_mem h)
  have hv : u32LE b < 2 ^ 32 := by
    have h0 := hgetD 0
    have h1 := hgetD 1
    have h2 := hgetD 2
    have h3 := hgetD 3
    unfold u32LE
    omega
  constructor
  · intro h8 h31
    unfold computedRecordsLen fourU8ToI32
    rw [if_pos h31]
    omega
  · intro h31
    unfold computedRecordsLen fourU8ToI32
    rw [if_neg (by omega)]
    omega

/-- Witness for the amended claim C9 at the header bytes `[16, 0, 0, 0]`
(encoded value 16): the loader reads exactly 8 records bytes. -/
theorem claim_C9_witness : computedRecordsLen [16, 0, 0, 0] = u32LE [16, 0, 0, 0] - 8 :=
  (claim_C9 [16, 0, 0, 0] (by decide)).1 (by decide) (by decide)

/-- Claim C10: there is a valid UTF-8 input of byte length between 8 and 11
whose 8th byte is a continuation byte (not a character boundary), on which
the sorted-index, hash, bloom and simd `find` implementations all panic at
the byte slice `no[..7]` (modelled by `none`) instead of returning a typed
error. -/
theorem claim_C10 :
    validUtf8 cPanicInput = true ∧
    isContinuationByte (cPanicInput.getD 7 0) = true ∧
    7 ≤ cPanicInput.length ∧ cPanicInput.length ≤ 11 ∧
    findBinary ⟨cRecords, cIndex⟩ cPanicInput = none ∧
    findHash [] cPanicInput = none ∧
    findBloom (fun _ _ => 0) ⟨cRecords, cIndex, ⟨[0], 1, 0⟩⟩ cPanicInput = none ∧
    findSimd ⟨cRecords, cIndex⟩ cPanicInput = none := by
  decide

/-- Claim C2: inputs shorter than 7 or longer than 11 characters fail with
`InvalidLength` (both the sorted-index `find` and the cached `lib.rs`
`find`); on a well-formed database, a 7- or 11-character all-digit input
never yields `InvalidLength` — it yields a record or `NotFound`. -/
theorem claim_C2 (records : List Nat) (idx : List Index) (en : Bool) (mx : Nat)
    (cache : Cache) (no : List Nat)
    (h7or11 : no.length = 7 ∨ no.length = 11)
    (hdig : no.all (fun b => isDigitByte b) = true)
    (hwf : WFDB records idx) :
    (∀ (no2 : List Nat) (cache2 : Cache), no2.length < 7 ∨ 11 < no2.length →
        findBinary ⟨records, idx⟩ no2 = some (.error (.kind .InvalidLength)) ∧
        libFind ⟨records, idx, en, mx⟩ cache2 no2 = some (.error .InvalidLength, cache2)) ∧
    ((∃ info, findBinary ⟨records, idx⟩ no = some (.ok info)) ∨
      findBinary ⟨records, idx⟩ no = some (.error (.kind .NotFound))) ∧
    ((∃ info c2, libFind ⟨records, idx, en, mx⟩ cache no = some (.ok info, c2)) ∨
      libFind ⟨records, idx, en, mx⟩ cache no = some (.error .NotFound, cache)) := by
  have hno : ValidNumber no :=
    ⟨by rcases h7or11 with h | h <;> omega, by rcases h7or11 with h | h <;> omega, hdig⟩
  have hlen : ¬ (no.length < 7 ∨ 11 < no.length) := by
    rcases h7or11 with h | h <;> omega
  refine ⟨?_, ?_, ?_⟩
  · intro no2 cache2 hlen2
    constructor
    · unfold findBinary
      dsimp only
      rw [if_pos hlen2]
    · unfold libFind
      rw [if_pos hlen2]
  · have hnp := validNumber_no_panic hno
    have hparse := strategyParse_valid hno
    unfold findBinary
    dsimp only
    rw [if_neg hlen, if_neg hnp, hparse]
    dsimp only
    cases hbs : binSearch idx ((digitsVal (no.take 7) : Nat) : Int) with
    | some e =>
      obtain ⟨hmem, _⟩ := binSearch_sound idx _ e hbs
      obtain ⟨⟨r, hr⟩, _, ⟨ct, hct⟩⟩ := hwf e hmem
      dsimp only
      rw [hr]
      dsimp only
      left
      refine ⟨⟨r.province, r.city, r.zipCode, r.areaCode, ct.getDescription⟩, ?_⟩
      unfold buildPhoneInfo
      rw [hct]
    | none =>
      right
      rfl
  · unfold libFind
    rw [if_neg hlen]
    dsimp only
    cases hsc : (if en = true then cacheLookup cache no else none) with
    | some v =>
      left
      exact ⟨v, cache, rfl⟩
    | none =>
      unfold libFindCore
      rw [parsePhonePrefix_valid no hno.1 (take7_all_digits hdig)]
      dsimp only
      cases hbs : binSearch idx ((digitsVal (no.take 7) : Nat) : Int) with
      | some e =>
        obtain ⟨hmem, _⟩ := binSearch_sound idx _ e hbs
        obtain ⟨_, ⟨r2, hr2⟩, ⟨ct, hct⟩⟩ := hwf e hmem
        dsimp only
        rw [hr2]
        dsimp only
        rw [hct]
        dsimp only
        left
        exact ⟨⟨r2.province, r2.city, r2.zipCode, r2.areaCode, ct.getDescription⟩, _, rfl⟩
      | none =>
        right
        rfl

/-- Witness for claim C2 at the concrete database, a 7-digit number, and a
3-character number. -/
theorem claim_C2_witness :
    (findBinary ⟨cRecords, cIndex⟩ [49, 50, 51] = some (.error (.kind .InvalidLength)) ∧
      libFind ⟨cRecords, cIndex, true, 1000⟩ [] [49, 50, 51] =
        some (.error .InvalidLength, [])) ∧
    ((∃ info, findBinary ⟨cRecords, cIndex⟩ [49, 56, 48, 56, 54, 56, 51] =
        some (.ok info)) ∨
      findBinary ⟨cRecords, cIndex⟩ [49, 56, 48, 56, 54, 56, 51] =
        some (.error (.kind .NotFound))) := by
  have h := claim_C2 cRecords cIndex true 1000 [] [49, 56, 48, 56, 54, 56, 51]
    (Or.inl (by decide)) (by decide)
    (by
      intro e he
      rw [cIndex, List.mem_singleton] at he
      subst he
      exact ⟨⟨⟨[65, 66], [67, 68], [69, 70], [71, 72]⟩, by decide⟩,
        ⟨⟨[65, 66], [67, 68], [69, 70], [71, 72]⟩, by decide⟩, ⟨CardType.Cmcc, by decide⟩⟩)
  exact ⟨h.1 [49, 50, 51] [] (by decide), h.2.1⟩

/-- Claim C4: with a coherent cache (the fresh database's empty cache is
coherent and stays so), `find` with the cache enabled returns exactly the
same value or error as `find` with the cache disabled, and coherence is
preserved — the cache changes only performance, never the result. -/
theorem claim_C4 (records : List Nat) (idx : List Index) (mx : Nat) (cache : Cache)
    (no : List Nat) (hco : Coherent ⟨records, idx, true, mx⟩ cache) :
    (libFind ⟨records, idx, true, mx⟩ cache no).map Prod.fst =
      (libFind ⟨records, idx, false, mx⟩ cache no).map Prod.fst ∧
    ∀ res c2, libFind ⟨records, idx, true, mx⟩ cache no = some (res, c2) →
      Coherent ⟨records, idx, true, mx⟩ c2 := by
  have hcoF : Coherent ⟨records, idx, false, mx⟩ cache := fun k v hlk => hco k v hlk
  constructor
  · rw [libFind_map_fst records idx true mx cache no hco,
      libFind_map_fst records idx false mx cache no hcoF]
    rfl
  · intro res c2 hf
    exact libFind_preserves_coherent records idx true mx cache no res c2 hco hf

/-- Witness for claim C4 at the concrete database with the empty cache. -/
theorem claim_C4_witness :
    (libFind ⟨cRecords, cIndex, true, 1000⟩ [] [49, 56, 48, 56, 54, 56, 51]).map Prod.fst =
      (libFind ⟨cRecords, cIndex, false, 1000⟩ [] [49, 56, 48, 56, 54, 56, 51]).map
        Prod.fst ∧
    ∀ res c2,
      libFind ⟨cRecords, cIndex, true, 1000⟩ [] [49, 56, 48, 56, 54, 56, 51] =
        some (res, c2) →
      Coherent ⟨cRecords, cIndex, true, 1000⟩ c2 :=
  claim_C4 cRecords cIndex 1000 [] [49, 56, 48, 56, 54, 56, 51]
    (by intro k v hlk; simp [cacheLookup] at hlk)

/-- Claim C6, counterexample: a 7-character input starting with the
non-digit `a` is rejected by the cached `find` with `InvalidPhoneDatabase`
(the corruption kind), not `InvalidLength` or any `InvalidFormat`; and the
sorted-index `find` even SUCCEEDS on the 8-character input `"+1234567"`
(non-digit `+` among the first seven characters) when prefix 123456 is
indexed, because `str::parse::<i32>` accepts a leading sign. -/
theorem claim_C6_cex :
    libFind ⟨cRecords, cIndex, true, 1000⟩ [] [97, 50, 51, 52, 53, 54, 55] =
      some (.error .InvalidPhoneDatabase, []) ∧
    findBinary ⟨cRecords, cIndexPlus⟩ [43, 49, 50, 51, 52, 53, 54, 55] =
      some (.ok cInfo) := by
  decide

/-- Claim C6 as amended: for a valid-length input with a non-digit among the
first seven bytes, the cached `lib.rs` `find` (when the exact input is not
already cached) rejects with `InvalidPhoneDatabase` — the corruption kind,
not `InvalidLength`/`InvalidFormat`; the strategy finds reject with a
numeric parse error when a non-digit occurs at positions 1–6 (a leading
sign with six digits is instead accepted, see the counterexample). -/
theorem claim_C6 (records : List Nat) (idx : List Index) (en : Bool) (mx : Nat)
    (cache : Cache) (no : List Nat)
    (h7 : 7 ≤ no.length) (h11 : no.length ≤ 11)
    (hnd : ∃ i, i < 7 ∧ isDigitByte (no.getD i 0) = false)
    (hlk : cacheLookup cache no = none) :
    parsePhonePrefix no = .error .InvalidPhoneDatabase ∧
    libFind ⟨records, idx, en, mx⟩ cache no =
      some (.error .InvalidPhoneDatabase, cache) ∧
    ((∃ i, 1 ≤ i ∧ i < 7 ∧ isDigitByte (no.getD i 0) = false) →
      (no.length ≠ 7 → isContinuationByte (no.getD 7 0) = false) →
      findBinary ⟨records, idx⟩ no = some (.error .parseInt)) := by
  have hpp := parsePhonePrefix_nonDigit no h7 hnd
  refine ⟨hpp, ?_, ?_⟩
  · unfold libFind
    rw [if_neg (by omega)]
    dsimp only
    rw [show (if en = true then cacheLookup cache no else none) = none by
      cases en <;> simp [hlk]]
    unfold libFindCore
    rw [hpp]
  · rintro ⟨i, h1i, hi7, hnd_i⟩ hcont
    have hperr : parseI32 (no.take 7) = .error () :=
      parseI32_error_of_nonDigit (no.take 7) i h1i
        (by rw [take7_length h7]; exact hi7)
        (by rw [List.getD_eq_get?, List.get?_take hi7, ← List.getD_eq_get?]; exact hnd_i)
    unfold findBinary
    dsimp only
    rw [if_neg (by omega),
      if_neg (by
        rintro ⟨hne7, hct⟩
        rw [hcont hne7] at hct
        exact Bool.false_ne_true hct)]
    by_cases hl7 : no.length = 7
    · rw [if_pos hl7]
      rw [List.take_of_length_le (by omega)] at hperr
      rw [hperr]
    · rw [if_neg hl7, hperr]

/-- Witness for the amended claim C6 at the input `"1a34567"`. -/
theorem claim_C6_witness :
    parsePhonePrefix [49, 97, 51, 52, 53, 54, 55] = .error .InvalidPhoneDatabase ∧
    findBinary ⟨cRecords, cIndex⟩ [49, 97, 51, 52, 53, 54, 55] =
      some (.error .parseInt) := by
  have h := claim_C6 cRecords cIndex true 1000 [] [49, 97, 51, 52, 53, 54, 55]
    (by decide) (by decide) ⟨1, by decide, by decide⟩ rfl
  exact ⟨h.1, h.2.2 ⟨1, by decide, by decide, by decide⟩ (by intro hne; exact absurd rfl hne)⟩

/-- Claim C7: for a number of length 8–11 whose first seven characters are
decimal digits (and which is a genuine UTF-8 string, as every Rust `&str`
is), `find` agrees with `find` of the 7-character prefix: in the
sorted-index strategy, in `parse_phone_prefix`, and — through a coherent
cache — in the cached `lib.rs` `find`. -/
theorem claim_C7 (records : List Nat) (idx : List Index) (en : Bool) (mx : Nat)
    (cache : Cache) (no : List Nat)
    (h8 : 8 ≤ no.length) (h11 : no.length ≤ 11)
    (hutf : validUtf8 no = true)
    (hdig : (no.take 7).all (fun b => isDigitByte b) = true)
    (hco : Coherent ⟨records, idx, en, mx⟩ cache) :
    findBinary ⟨records, idx⟩ no = findBinary ⟨records, idx⟩ (no.take 7) ∧
    parsePhonePrefix no = parsePhonePrefix (no.take 7) ∧
    (libFind ⟨records, idx, en, mx⟩ cache no).map Prod.fst =
      (libFind ⟨records, idx, en, mx⟩ cache (no.take 7)).map Prod.fst := by
  have h7 : 7 ≤ no.length := by omega
  have hlen7 := take7_length h7
  have hcont : isContinuationByte (no.getD 7 0) = false :=
    not_cont_at7 hutf (digits_ascii hdig)
  refine ⟨?_, ?_, ?_⟩
  · have hA : ¬ (no.length < 7 ∨ 11 < no.length) := by omega
    have hB : ¬ ((no.take 7).length < 7 ∨ 11 < (no.take 7).length) := by
      rw [hlen7]
      omega
    have hC : ¬ (no.length ≠ 7 ∧ isContinuationByte (no.getD 7 0) = true) := by
      rintro ⟨hne, hct⟩
      rw [hcont] at hct
      exact Bool.false_ne_true hct
    have hD : ¬ ((no.take 7).length ≠ 7 ∧
        isContinuationByte ((no.take 7).getD 7 0) = true) := by
      rintro ⟨hne, _⟩
      exact hne hlen7
    have hE : ¬ no.length = 7 := by omega
    unfold findBinary
    dsimp only
    rw [if_neg hA, if_neg hB, if_neg hC, if_neg hD, if_neg hE, if_pos hlen7]
  · unfold parsePhonePrefix
    rw [if_neg (by omega), if_neg (by rw [hlen7]; omega), List.take_take]
    norm_num
  · rw [libFind_map_fst records idx en mx cache no hco,
      libFind_map_fst records idx en mx cache (no.take 7) hco]
    unfold libFindSpec
    rw [if_neg (by omega), if_neg (by rw [hlen7]; omega)]
    exact libFindCore_take7 records idx en mx no h7 hdig

/-- Witness for claim C7 at the 8-digit input `"18086834"`. -/
theorem claim_C7_witness :
    findBinary ⟨cRecords, cIndex⟩ [49, 56, 48, 56, 54, 56, 51, 52] =
      findBinary ⟨cRecords, cIndex⟩ ([49, 56, 48, 56, 54, 56, 51, 52].take 7) ∧
    parsePhonePrefix [49, 56, 48, 56, 54, 56, 51, 52] =
      parsePhonePrefix ([49, 56, 48, 56, 54, 56, 51, 52].take 7) ∧
    (libFind ⟨cRecords, cIndex, true, 1000⟩ [] [49, 56, 48, 56, 54, 56, 51, 52]).map
        Prod.fst =
      (libFind ⟨cRecords, cIndex, true, 1000⟩ []
          ([49, 56, 48, 56, 54, 56, 51, 52].take 7)).map Prod.fst :=
  claim_C7 cRecords cIndex true 1000 [] [49, 56, 48, 56, 54, 56, 51, 52]
    (by decide) (by decide) (by decide) (by decide)
    (by intro k v hlk; simp [cacheLookup] at hlk)

/-- Claim C8: the result cache never stores a failed lookup, becomes
read-only once it holds `cache_max_size` entries, and its entry count never
exceeds `cache_max_size` over any sequence of `find` calls started from the
fresh (empty) cache. -/
theorem claim_C8 (records : List Nat) (idx : List Index) (en : Bool) (mx : Nat)
    (cache : Cache) (no : List Nat) (res : Except ErrorKind PhoneNoInfo) (c2 : Cache)
    (nos : List (List Nat))
    (hfind : libFind ⟨records, idx, en, mx⟩ cache no = some (res, c2)) :
    ((∃ k, res = .error k) → c2 = cache) ∧
    (mx ≤ cache.length → c2 = cache) ∧
    (cache.length ≤ mx → c2.length ≤ mx) ∧
    (runFinds ⟨records, idx, en, mx⟩ nos []).length ≤ mx := by
  have hch := libFind_cache_characterization records idx en mx cache no res c2 hfind
  refine ⟨?_, ?_, ?_, ?_⟩
  · rintro ⟨k, rfl⟩
    rcases hch with h | ⟨info, hres, _⟩
    · exact h
    · exact absurd hres (by simp)
  · intro hmx
    rcases hch with h | ⟨info, _, _, hlt, _⟩
    · exact h
    · omega
  · intro hle
    rcases hch with h | ⟨info, _, _, hlt, _, h2⟩
    · rw [h]
      exact hle
    · rw [h2]
      have := cacheInsert_length_le cache no info
      omega
  · have aux : ∀ (ns : List (List Nat)) (c : Cache), c.length ≤ mx →
        (runFinds ⟨records, idx, en, mx⟩ ns c).length ≤ mx := by
      intro ns
      induction ns with
      | nil =>
        intro c hc
        exact hc
      | cons n t ih =>
        intro c hc
        unfold runFinds
        cases hf : libFind ⟨records, idx, en, mx⟩ c n with
        | none => exact ih c hc
        | some p =>
          apply ih
          rcases libFind_cache_characterization records idx en mx c n p.1 p.2
              (by rw [hf]) with h | ⟨info, _, _, hlt, _, h2⟩
          · rw [h]
            exact hc
          · rw [h2]
            have := cacheInsert_length_le c n info
            omega
    exact aux nos [] (by simp)

/-- Witness for claim C8 at a concrete failing lookup and a concrete call
sequence. -/
theorem claim_C8_witness :
    (([] : Cache) = []) ∧
    (runFinds ⟨cRecords, cIndex, true, 1000⟩ [[49, 56, 48, 56, 54, 56, 51]] []).length ≤
      1000 := by
  have h := claim_C8 cRecords cIndex true 1000 [] [49, 50, 51] (.error .InvalidLength) []
    [[49, 56, 48, 56, 54, 56, 51]] (by decide)
  exact ⟨h.1 ⟨.InvalidLength, rfl⟩, h.2.2.2⟩

end PhoneData
